import Mathlib

/-!
Shallow embedding of the on-call scheduler engine from `src/scheduler.js`
(class `OnCallScheduler`), together with proofs about the claims of its
specification.

Modelling conventions:
* A JavaScript `Date` that the engine produces is always a local-midnight
  calendar day, so we represent it by its day number (days since
  1970-01-01, the day part of the JS time value).  `civilFromDays`
  converts a day number to the proleptic-Gregorian calendar date whose
  local components `getFullYear/getMonth/getDate` the source reads.
* JS numbers appearing in the engine are all small integers, so `Nat`
  and `Int` model them exactly.
* The semantics of the ECMAScript `Date` constructor
  `new Date(y, m0, d)` (two-digit-year remapping to 1900+y, then month
  and day overflow normalization) is modelled by `jsNewDate`, with a
  fuel-bounded day-normalization walk; `none` means the fuel bound was
  exceeded (never happens for the inputs we reason about).
-/

/-! ### Decimal digits: the pieces of JS `String(n)`, `parseInt`, `padStart` -/

def isDigitCh (c : Char) : Bool :=
  48 ≤ c.toNat && c.toNat ≤ 57

def digitVal (c : Char) : Nat := c.toNat - 48

def digitCh (n : Nat) : Char := Char.ofNat (48 + n)

/-- Big-endian decimal digit characters of a natural number, fuelled
(`fuel > n` suffices). -/
def natDecCharsAux : Nat → Nat → List Char
  | 0, _ => []
  | fuel + 1, n =>
    if n < 10 then [digitCh n]
    else natDecCharsAux fuel (n / 10) ++ [digitCh (n % 10)]

/-- Decimal digit characters of `n`, as JS `String(n)` produces for a
nonnegative integer. -/
def natDecChars (n : Nat) : List Char := natDecCharsAux (n + 1) n

/-- JS `String(i)` for an integer value. -/
def intToDecChars (i : Int) : List Char :=
  if i < 0 then '-' :: natDecChars i.natAbs else natDecChars i.natAbs

def intToDecString (i : Int) : String := String.mk (intToDecChars i)

/-- Value of a big-endian digit string. -/
def digitsVal (cs : List Char) : Nat :=
  cs.foldl (fun a c => a * 10 + digitVal c) 0

/-- Parse a nonempty all-digit character list. -/
def parseDigits (cs : List Char) : Option Nat :=
  if cs ≠ [] ∧ cs.all isDigitCh then some (digitsVal cs) else none

/-- JS `parseInt(s)` restricted to strings that are entirely an optional
sign followed by decimal digits (the only shape the date code feeds it
that we reason about; on other strings the model is `none`). -/
def parseIntJS (cs : List Char) : Option Int :=
  match cs with
  | [] => none
  | c :: rest =>
    if c = '-' then (parseDigits rest).map (fun n => -(n : Int))
    else if c = '+' then (parseDigits rest).map (fun n => (n : Int))
    else (parseDigits (c :: rest)).map (fun n => (n : Int))

/-- JS `String(n).padStart(2, "0")`. -/
def pad2 (i : Int) : List Char :=
  let s := intToDecChars i
  if s.length < 2 then '0' :: s else s

/-- JS `str.split("-")` on the character list. -/
def splitOnDash : List Char → List (List Char)
  | [] => [[]]
  | c :: rest =>
    if c = '-' then [] :: splitOnDash rest
    else
      match splitOnDash rest with
      | [] => [[c]]
      | g :: gs => (c :: g) :: gs

/-! ### Calendar arithmetic -/

structure Civil where
  year : Int
  month : Int
  day : Int
deriving DecidableEq, Repr

/-- Proleptic-Gregorian leap year, as the ECMAScript time arithmetic
realizes it. -/
def isLeap (y : Int) : Bool :=
  (y.emod 4 == 0 && y.emod 100 != 0) || y.emod 400 == 0

/-- Number of days of month `m` (1..12) of year `y`. -/
def monthLen (y m : Int) : Int :=
  if m = 2 then (if isLeap y then 29 else 28)
  else if m = 4 ∨ m = 6 ∨ m = 9 ∨ m = 11 then 30
  else 31

/-- Day-overflow normalization of a civil date whose month is already in
1..12: walks the day into range one month at a time.  Fuel-bounded; all
uses supply enough fuel. -/
def normDayWalk : Nat → Int → Int → Int → Option Civil
  | 0, _, _, _ => none
  | fuel + 1, y, m, d =>
    if d < 1 then
      let y2 := if m = 1 then y - 1 else y
      let m2 := if m = 1 then 12 else m - 1
      normDayWalk fuel y2 m2 (d + monthLen y2 m2)
    else if d > monthLen y m then
      let y2 := if m = 12 then y + 1 else y
      let m2 := if m = 12 then 1 else m + 1
      normDayWalk fuel y2 m2 (d - monthLen y m)
    else some ⟨y, m, d⟩

/-- ECMAScript `new Date(y, m0, d)` (month argument 0-based), viewed as
the civil calendar day it denotes: two-digit years are remapped to
1900+y, the month is folded into the year with floored division, and the
day offset is normalized. -/
def jsNewDate (y m0 d : Int) : Option Civil :=
  let yr := if 0 ≤ y ∧ y ≤ 99 then 1900 + y else y
  let ym := yr + m0.ediv 12
  let mn := m0.emod 12 + 1
  normDayWalk (d.natAbs + 420) ym mn d

/-- `parseLocalDate` of `scheduler.js` on a string input of the shape
`a-b-c` with numeric parts: `new Date(parts[0], parts[1]-1, parts[2])`.
Strings of any other shape fall to a host `Date`-string parse the model
does not cover (`none`). -/
def parseLocalDateStr (s : String) : Option Civil :=
  match splitOnDash s.data with
  | [ys, ms, ds] =>
    match parseIntJS ys, parseIntJS ms, parseIntJS ds with
    | some y, some m, some d => jsNewDate y (m - 1) d
    | _, _, _ => none
  | _ => none

/-- The `YYYY-MM-DD` rendering of `normalizeDate`:
`year` plain, `month`/`day` padded with `padStart(2, "0")`. -/
def formatCivil (c : Civil) : String :=
  String.mk (intToDecChars c.year ++ '-' :: pad2 c.month ++ '-' :: pad2 c.day)

/-- `normalizeDate` of `scheduler.js` on a string input (parse as local
date, then format the local components). -/
def normalizeDate (s : String) : Option String :=
  (parseLocalDateStr s).map formatCivil

/-! ### Day numbers (model of the engine's local-midnight `Date` values) -/

/-- Civil date of a day number (days since 1970-01-01), standard
era-based conversion; all divisions are floored (positive divisors). -/
def civilFromDays (z : Int) : Civil :=
  let z2 := z + 719468
  let era := z2.ediv 146097
  let doe := z2 - era * 146097
  let yoe := (doe - doe.ediv 1460 + doe.ediv 36524 - doe.ediv 146096).ediv 365
  let y := yoe + era * 400
  let doy := doe - (365 * yoe + yoe.ediv 4 - yoe.ediv 100)
  let mp := (5 * doy + 2).ediv 153
  let d := doy - (153 * mp + 2).ediv 5 + 1
  let m := mp + (if mp < 10 then 3 else -9)
  ⟨y + (if m ≤ 2 then 1 else 0), m, d⟩

/-- JS `date.getDay()` for a day number: 0 = Sunday .. 6 = Saturday
(1970-01-01 was a Thursday). -/
def jsGetDay (z : Int) : Int := (z + 4).emod 7

/-- `isWeekendNight` of `scheduler.js`: Friday (5) or Saturday (6). -/
def isWeekendNight (z : Int) : Bool := jsGetDay z == 5 || jsGetDay z == 6

/-- `getDayName` of `scheduler.js`. -/
def getDayName (z : Int) : String :=
  match (jsGetDay z).toNat with
  | 0 => "Sunday"
  | 1 => "Monday"
  | 2 => "Tuesday"
  | 3 => "Wednesday"
  | 4 => "Thursday"
  | 5 => "Friday"
  | _ => "Saturday"

/-- The `YYYY-MM-DD` string of a day number (what `normalizeDate`
returns for one of the engine's own `Date` values). -/
def dayStr (z : Int) : String := formatCivil (civilFromDays z)

/-! ### Data model of the scheduler (`class OnCallScheduler`) -/

inductive Role
  | primary
  | secondary
deriving DecidableEq, Repr

/-- Roster entry.  The random `id` field of the source is produced by
`generateId` and read nowhere in the engine, so it is not modelled. -/
structure Person where
  name : String
  email : String
deriving DecidableEq, Repr

/-- A preference record (`{preferred, notPreferred}`): sets of normalized
`YYYY-MM-DD` strings, modelled by the day numbers those strings denote
(the rendering of calendar days to strings is injective, so string
membership tests coincide with day membership tests). -/
structure PrefPair where
  preferred : List Int
  notPreferred : List Int
deriving DecidableEq, Repr

/-- One duty slot.  `dateStr`/`id` of the source are derived from
`(day, role, slotIndex)` injectively, so equality tests on them are
modelled by equality of these fields; `slot` (the label) is
`getSlotLabel slotIndex`. -/
structure SlotRec where
  day : Int
  role : Role
  slotIndex : Nat
  isWeekend : Bool
  duration : Int
  assigned : Option Person
  warning : Bool
deriving DecidableEq, Repr

/-- The email of the assigned person, if any. -/
def SlotRec.aEmail (s : SlotRec) : Option String := s.assigned.map (·.email)

/-- The four shift-type categories (`getShiftTypeKey` values). -/
inductive ShiftKey
  | weekday_primary
  | weekend_primary
  | weekday_secondary
  | weekend_secondary
deriving DecidableEq, Repr, Fintype

def getShiftTypeKey (s : SlotRec) : ShiftKey :=
  match s.isWeekend, s.role with
  | true, .primary => .weekend_primary
  | true, .secondary => .weekend_secondary
  | false, .primary => .weekday_primary
  | false, .secondary => .weekday_secondary

/-- Per-person load record; all JS numbers, hence `Int`. -/
structure LoadRec where
  weekday_primary : Int
  weekend_primary : Int
  weekday_secondary : Int
  weekend_secondary : Int
  total_hours : Int
deriving DecidableEq, Repr

def LoadRec.zero : LoadRec := ⟨0, 0, 0, 0, 0⟩

def LoadRec.get (r : LoadRec) : ShiftKey → Int
  | .weekday_primary => r.weekday_primary
  | .weekend_primary => r.weekend_primary
  | .weekday_secondary => r.weekday_secondary
  | .weekend_secondary => r.weekend_secondary

/-- Add `v` to the counter of category `k`. -/
def LoadRec.addK (r : LoadRec) (k : ShiftKey) (v : Int) : LoadRec :=
  match k with
  | .weekday_primary => { r with weekday_primary := r.weekday_primary + v }
  | .weekend_primary => { r with weekend_primary := r.weekend_primary + v }
  | .weekday_secondary => { r with weekday_secondary := r.weekday_secondary + v }
  | .weekend_secondary => { r with weekend_secondary := r.weekend_secondary + v }

def LoadRec.addHours (r : LoadRec) (v : Int) : LoadRec :=
  { r with total_hours := r.total_hours + v }

/-- The `currentLoad` map.  `initializeLoad` of the source creates a zero
record for every roster email and the engine only ever reads roster
emails, so the constant-zero function is its faithful initial value. -/
def LoadMap : Type := String → LoadRec

def LoadMap.zero : LoadMap := fun _ => LoadRec.zero

def updLoad (load : LoadMap) (e : String) (f : LoadRec → LoadRec) : LoadMap :=
  fun x => if x = e then f (load x) else load x

/-- Per-category target record (`calculateTargetShifts` entries). -/
structure Target where
  total : Int
  min : Int
  max : Int
deriving DecidableEq, Repr

def Targets : Type := ShiftKey → Target

/-- Scheduler state: the persistent fields of `OnCallScheduler` that the
engine reads (colour tables are display-only and unread by the engine). -/
structure Scheduler where
  people : List Person
  prefs : List (String × PrefPair)
  rangeStart : Option Int
  rangeEnd : Option Int
  schedule : List SlotRec
  primaryCount : Nat
  secondaryCount : Nat

/-- `this.preferences.get(email)` on the preference map. -/
def lookupPrefs (prefs : List (String × PrefPair)) (e : String) : Option PrefPair :=
  (prefs.find? fun kv => kv.1 == e).map (·.2)

/-! ### Engine helpers -/

/-- `generateDates`: every day of the inclusive range (empty if the range
is inverted; the source is only called with both endpoints set). -/
def generateDates (start stop : Option Int) : List Int :=
  match start, stop with
  | some a, some b => (List.range (b - a + 1).toNat).map fun i => a + (i : Int)
  | _, _ => []

def getSlotLabel (i : Nat) : Char := Char.ofNat (97 + i)

def mkPrimarySlot (z : Int) (i : Nat) : SlotRec :=
  { day := z, role := .primary, slotIndex := i, isWeekend := isWeekendNight z,
    duration := if isWeekendNight z then 24 else 12, assigned := none, warning := false }

def mkSecondarySlot (z : Int) (i : Nat) : SlotRec :=
  { day := z, role := .secondary, slotIndex := i, isWeekend := isWeekendNight z,
    duration := 12, assigned := none, warning := false }

/-- `generateSlots`: per day, `primaryCount` primary slots then
`secondaryCount` secondary slots. -/
def generateSlots (s : Scheduler) : List SlotRec :=
  (generateDates s.rangeStart s.rangeEnd).flatMap fun z =>
    ((List.range s.primaryCount).map (mkPrimarySlot z)) ++
    ((List.range s.secondaryCount).map (mkSecondarySlot z))

/-- `Math.ceil(a / n)` for nonnegative integers (`n = 0` never reached:
  `generateSchedule` requires `people.length ≥ primary+secondary ≥` the
  cases that read targets). -/
def ceilDivNat (a n : Nat) : Nat := (a + n - 1) / n

def calculateTargetShifts (s : Scheduler) : Targets :=
  let dates := generateDates s.rangeStart s.rangeEnd
  let wkd := (dates.filter fun z => !isWeekendNight z).length
  let wke := (dates.filter fun z => isWeekendNight z).length
  let n := s.people.length
  let mk : Nat → Target := fun tot => ⟨(tot : Int), ((tot / n : Nat) : Int), ((ceilDivNat tot n : Nat) : Int)⟩
  fun k =>
    match k with
    | .weekday_primary => mk (wkd * s.primaryCount)
    | .weekend_primary => mk (wke * s.primaryCount)
    | .weekday_secondary => mk (wkd * s.secondaryCount)
    | .weekend_secondary => mk (wke * s.secondaryCount)

/-- `canAssign`: false iff the date is in the person's `notPreferred`
set. -/
def canAssign (prefs : List (String × PrefPair)) (email : String) (z : Int) : Bool :=
  match lookupPrefs prefs email with
  | some pp => !(pp.notPreferred.contains z)
  | none => true

/-- `getSameDayShifts`: slots of the current schedule assigned to this
email on this calendar day. -/
def getSameDayShifts (sched : List SlotRec) (email : String) (z : Int) : List SlotRec :=
  sched.filter fun s => (s.aEmail == some email) && (s.day == z)

/-- The preference adjustment used both in `calculateCost` and in the
initial-fill ranking: preferred −5, else notPreferred +10, else 0. -/
def prefAdj (prefs : List (String × PrefPair)) (email : String) (z : Int) : Int :=
  match lookupPrefs prefs email with
  | some pp =>
    if pp.preferred.contains z then -5
    else if pp.notPreferred.contains z then 10
    else 0
  | none => 0

/-- `calculateCost(person, slot, currentLoad, targets)`; it also reads
`this.schedule` (through `getSameDayShifts`) and `this.preferences`,
which are therefore explicit arguments.  The `targets` argument is the
always-present record of `calculateTargetShifts`, so the source's
`if (target)` guard is always taken. -/
def calculateCost (prefs : List (String × PrefPair)) (targets : Targets)
    (sched : List SlotRec) (load : LoadMap) (email : String) (slot : SlotRec) : Int :=
  let key := getShiftTypeKey slot
  let personCount := (load email).get key
  let t := targets key
  let fairness : Int :=
    if personCount ≥ t.max then 100000
    else personCount * 1000 + (if personCount ≥ t.min ∧ 0 < t.min then 500 else 0)
  fairness
    + prefAdj prefs email slot.day
    + (if slot.isWeekend then 2 else 0)
    + (if (getSameDayShifts sched email slot.day).length > 0 then 1000000 else 0)

/-! ### Stable sorting with a JS comparator -/

/-- Insert `x` behind every already-placed element the comparator does
not strictly order after `x`; folding this over a list from the left is
exactly a stable sort for the (negation-symmetric) comparators the
source passes to `Array.prototype.sort`. -/
def insertByCmp (cmp : α → α → Int) (x : α) : List α → List α
  | [] => [x]
  | y :: ys => if cmp x y < 0 then x :: y :: ys else y :: insertByCmp cmp x ys

def sortByCmp (cmp : α → α → Int) (l : List α) : List α :=
  l.foldl (fun acc x => insertByCmp cmp x acc) []

def slotWeight (s : SlotRec) : Int :=
  (if s.isWeekend then 10 else 0) + (if s.role = .primary then 5 else 0)

/-- The slot-processing comparator: date ascending, then weight
descending (two slots have equal `dateStr` iff they have equal `day`). -/
def slotCmp (a b : SlotRec) : Int :=
  if a.day ≠ b.day then a.day - b.day else slotWeight b - slotWeight a

/-! ### Initial greedy fill (`generateSchedule` main loop) -/

/-- Engine context fixed for one run. -/
structure FillCtx where
  people : List Person
  prefs : List (String × PrefPair)
  targets : Targets

inductive SchedErr
  | capacity (need : Nat)
  | noRange
  | impossible (day : Int) (role : Role) (idx : Nat)
deriving DecidableEq, Repr

def SchedErr.isCapacity : SchedErr → Bool
  | .capacity _ => true
  | _ => false

/-- The strict candidate pool of the fill loop: below max, free that
day, and (below min, or the date not marked notPreferred). -/
def strictCands (ctx : FillCtx) (sched : List SlotRec) (load : LoadMap) (slot : SlotRec) :
    List Person :=
  let key := getShiftTypeKey slot
  let t := ctx.targets key
  ctx.people.filter fun p =>
    let cnt := (load p.email).get key
    if cnt ≥ t.max then false
    else if (getSameDayShifts sched p.email slot.day).length > 0 then false
    else if cnt < t.min then true
    else canAssign ctx.prefs p.email slot.day

/-- The last-resort pool: anyone without a shift that day. -/
def relaxedCands (ctx : FillCtx) (sched : List SlotRec) (slot : SlotRec) : List Person :=
  ctx.people.filter fun p => (getSameDayShifts sched p.email slot.day).length == 0

def listMinI : List Int → Int
  | [] => 0
  | x :: xs => xs.foldl min x

def listMaxI : List Int → Int
  | [] => 0
  | x :: xs => xs.foldl max x

/-- The source computes `parseInt` of `slot.dateStr` with the dashes
removed; for the anno-domini day numbers every claim uses this is
`y*10000 + m*100 + d` of the civil date. -/
def dateNum (z : Int) : Int :=
  let c := civilFromDays z
  c.year * 10000 + c.month * 100 + c.day

def slotNumOf (s : SlotRec) : Int :=
  (s.slotIndex : Int) + (if s.role = .primary then 0 else 100)

structure Ranked where
  person : Person
  prefCost : Int
  rotatedIndex : Int
deriving Repr

def rankedCmp (a b : Ranked) : Int :=
  if a.prefCost ≠ b.prefCost then a.prefCost - b.prefCost
  else a.rotatedIndex - b.rotatedIndex

/-- Ranking of the fair candidates (preference first, then rotated
index) and selection of the winner; `none` only on an empty pool. -/
def pickBest (ctx : FillCtx) (fair : List Person) (slot : SlotRec) : Option Person :=
  let len : Int := (fair.length : Int)
  let seed := (dateNum slot.day + slotNumOf slot).emod len
  let ranked := fair.enum.map fun ip =>
    { person := ip.2, prefCost := prefAdj ctx.prefs ip.2.email slot.day,
      rotatedIndex := ((ip.1 : Int) + seed).emod len : Ranked }
  ((sortByCmp rankedCmp ranked).head?).map (·.person)

/-- Fill-loop state: the schedule built so far, the load map, and the
pending error of a thrown scheduling-impossibility. -/
structure FillSt where
  sched : List SlotRec
  load : LoadMap
  err : Option SchedErr

/-- Assign `slot` to the winner of `cands` (nonempty in every use). -/
def assignFromPool (ctx : FillCtx) (st : FillSt) (slot : SlotRec)
    (cands : List Person) (warn : Bool) : FillSt :=
  let key := getShiftTypeKey slot
  let minCnt := listMinI (cands.map fun p => (st.load p.email).get key)
  let fair := cands.filter fun p => (st.load p.email).get key == minCnt
  match pickBest ctx fair slot with
  | none => { st with err := some (.impossible slot.day slot.role slot.slotIndex) }
  | some p =>
    let slot2 := { slot with assigned := some p, warning := warn }
    { sched := st.sched ++ [slot2],
      load := updLoad st.load p.email fun r => (r.addK key 1).addHours slot.duration,
      err := none }

/-- One iteration of the fill loop over a slot.  The `pickBest = none`
branch of `assignFromPool` is unreachable (the pool is nonempty), kept
only to make the function total. -/
def fillStep (ctx : FillCtx) (st : FillSt) (slot : SlotRec) : FillSt :=
  match st.err with
  | some _ => st
  | none =>
    let strict := strictCands ctx st.sched st.load slot
    if strict.isEmpty then
      let relaxed := relaxedCands ctx st.sched slot
      if relaxed.isEmpty then
        { st with err := some (.impossible slot.day slot.role slot.slotIndex) }
      else assignFromPool ctx st slot relaxed true
    else assignFromPool ctx st slot strict false

/-- The whole fill, starting from the cleared schedule and the zeroed
load map. -/
def runFill (ctx : FillCtx) (slots : List SlotRec) : FillSt :=
  slots.foldl (fillStep ctx) ⟨[], LoadMap.zero, none⟩

/-! ### Swap optimizer (`optimizeWithSwaps`) -/

/-- Number of schedule entries other than index `i` assigned to `email`
on day `z` (the `s.id !== slot.id` conflict scan; slot ids are unique, so
id inequality is index inequality). -/
def sameDayExceptLen (sched : List SlotRec) (i : Nat) (email : String) (z : Int) : Nat :=
  (sched.enum.filter fun js =>
    (js.1 != i) && (js.2.aEmail == some email) && (js.2.day == z)).length

/-- The inner candidate scan of the optimizer: the first roster person
(in roster order) passing every gate whose cost clears the improvement
threshold. -/
def findSwap (ctx : FillCtx) (sched : List SlotRec) (load : LoadMap) (i : Nat)
    (slot : SlotRec) (cpEmail : String) (cc : Int) : Option Person :=
  let key := getShiftTypeKey slot
  let t := ctx.targets key
  ctx.people.find? fun q =>
    (q.email != cpEmail) &&
    !((load q.email).get key ≥ t.max) &&
    !(!(canAssign ctx.prefs q.email slot.day) && (load q.email).get key ≥ t.min) &&
    (sameDayExceptLen sched i q.email slot.day == 0) &&
    (calculateCost ctx.prefs ctx.targets sched load q.email slot < cc - 20)

/-- Processing of schedule index `i` in one optimizer pass.  A slot with
no assignee cannot occur after the fill (the source would fault on it);
the model skips it. -/
def optSlotStep (ctx : FillCtx) (st : List SlotRec × LoadMap × Bool) (i : Nat) :
    List SlotRec × LoadMap × Bool :=
  let (sched, load, _improved) := st
  match sched.get? i with
  | none => st
  | some slot =>
    match slot.assigned with
    | none => st
    | some cp =>
      let key := getShiftTypeKey slot
      let t := ctx.targets key
      if (load cp.email).get key ≤ t.min then st
      else
        let cc := calculateCost ctx.prefs ctx.targets sched load cp.email slot
        match findSwap ctx sched load i slot cp.email cc with
        | none => st
        | some q =>
          (sched.set i { slot with assigned := some q },
           updLoad (updLoad load cp.email fun r => (r.addK key (-1)).addHours (-slot.duration))
             q.email fun r => (r.addK key 1).addHours slot.duration,
           true)

/-- One full pass of the optimizer over the schedule. -/
def optPass (ctx : FillCtx) (st : List SlotRec × LoadMap) : List SlotRec × LoadMap × Bool :=
  (List.range st.1.length).foldl (optSlotStep ctx) (st.1, st.2, false)

def optLoop (ctx : FillCtx) : Nat → List SlotRec × LoadMap → List SlotRec × LoadMap
  | 0, st => st
  | fuel + 1, st =>
    let r := optPass ctx st
    if r.2.2 then optLoop ctx fuel (r.1, r.2.1) else (r.1, r.2.1)

/-- `optimizeWithSwaps`: up to 100 passes, stopping after a pass that
made no change. -/
def optimizeWithSwaps (ctx : FillCtx) (st : List SlotRec × LoadMap) :
    List SlotRec × LoadMap :=
  optLoop ctx 100 st

/-! ### Final balancer (`balanceShifts`) -/

/-- Ordering of recipients in the direct-transfer strategy: −1 if the
slot date is preferred, +1 if notPreferred, else 0 (missing preference
record scores 0). -/
def recipientScore (prefs : List (String × PrefPair)) (email : String) (z : Int) : Int :=
  match lookupPrefs prefs email with
  | some pp =>
    if pp.preferred.contains z then -1
    else if pp.notPreferred.contains z then 1
    else 0
  | none => 0

/-- The notPreferred membership test of the balancer (optional chaining:
a missing record is not notPreferred). -/
def notPrefB (prefs : List (String × PrefPair)) (email : String) (z : Int) : Bool :=
  match lookupPrefs prefs email with
  | some pp => pp.notPreferred.contains z
  | none => false

/-- Indices of the schedule slots currently assigned to `email` in
category `key`, in schedule order. -/
def ownedSlotIdxs (sched : List SlotRec) (email : String) (key : ShiftKey) : List Nat :=
  (sched.enum.filter fun js =>
    (js.2.aEmail == some email) && (getShiftTypeKey js.2 == key)).map (·.1)

/-- Move one slot (at index `i`) from `fromE` to `toE`, updating both
load records. -/
def applyTransfer (sched : List SlotRec) (load : LoadMap) (i : Nat) (slot : SlotRec)
    (key : ShiftKey) (fromE : String) (toP : Person) : List SlotRec × LoadMap :=
  (sched.set i { slot with assigned := some toP },
   updLoad (updLoad load fromE fun r => (r.addK key (-1)).addHours (-slot.duration))
     toP.email fun r => (r.addK key 1).addHours slot.duration)

/-- The recipient selection of the balancer's direct transfer: among
recipients free on the slot's day, sorted by preference score, the first
not marking the date notPreferred, else the head of the sorted list. -/
def pickRecipient (ctx : FillCtx) (recipients : List Person) (sched : List SlotRec)
    (i : Nat) (slot : SlotRec) : Option Person :=
  let cands := recipients.filter fun p => sameDayExceptLen sched i p.email slot.day == 0
  let sorted := sortByCmp
    (fun a b => recipientScore ctx.prefs a.email slot.day
                - recipientScore ctx.prefs b.email slot.day) cands
  match sorted.find? fun p => !(notPrefB ctx.prefs p.email slot.day) with
  | some p => some p
  | none => sorted.head?

/-- Strategy 1 of the balancer: first donor (roster order), first of the
donor's category slots (schedule order) for which some recipient is free
that day. -/
def strat1 (ctx : FillCtx) (key : ShiftKey) (sched : List SlotRec) (load : LoadMap)
    (donors recipients : List Person) : Option (List SlotRec × LoadMap) :=
  donors.findSome? fun fromP =>
    (ownedSlotIdxs sched fromP.email key).findSome? fun i =>
      (sched.get? i).bind fun slot =>
        (pickRecipient ctx recipients sched i slot).map fun toP =>
          applyTransfer sched load i slot key fromP.email toP

/-- Indices of the slots assigned to `email` in category `key` on a day
other than `z`, in schedule order. -/
def ownedSlotIdxsOtherDay (sched : List SlotRec) (email : String) (key : ShiftKey)
    (z : Int) : List Nat :=
  (sched.enum.filter fun js =>
    (js.2.aEmail == some email) && (getShiftTypeKey js.2 == key) && (js.2.day != z)).map (·.1)

/-- Strategy 2 of the balancer: triangle rotation.  The donor's slot
goes to an intermediary (neither this donor nor a recipient; its count
is always within `[minC, maxC]`, matching the vacuous source bound), and
one of the intermediary's category slots on a different day goes to a
recipient.  The four load updates mirror the source's four sequential
counter mutations. -/
def strat2 (ctx : FillCtx) (key : ShiftKey) (sched : List SlotRec) (load : LoadMap)
    (donors recipients : List Person) (minC maxC : Int) : Option (List SlotRec × LoadMap) :=
  donors.findSome? fun donor =>
    (ownedSlotIdxs sched donor.email key).findSome? fun di =>
      (sched.get? di).bind fun donorSlot =>
        let inters := ctx.people.filter fun p =>
          (p.email != donor.email) &&
          !(recipients.any fun r => r.email == p.email) &&
          (minC ≤ (load p.email).get key) && ((load p.email).get key ≤ maxC)
        inters.findSome? fun inter =>
          if sameDayExceptLen sched di inter.email donorSlot.day != 0 then none
          else
            (ownedSlotIdxsOtherDay sched inter.email key donorSlot.day).findSome? fun ii =>
              (sched.get? ii).bind fun intSlot =>
                (recipients.find? fun p =>
                    sameDayExceptLen sched ii p.email intSlot.day == 0).map fun rec =>
                  ((sched.set di { donorSlot with assigned := some inter }).set
                    ii { intSlot with assigned := some rec },
                   updLoad
                     (updLoad
                       (updLoad
                         (updLoad load donor.email fun r =>
                           (r.addK key (-1)).addHours (-donorSlot.duration))
                         inter.email fun r => (r.addK key 1).addHours donorSlot.duration)
                       inter.email fun r => (r.addK key (-1)).addHours (-intSlot.duration))
                     rec.email fun r => (r.addK key 1).addHours intSlot.duration)

/-- The per-category counts the balancer works from (taken from the load
map, in roster order). -/
def balCounts (ctx : FillCtx) (load : LoadMap) (key : ShiftKey) : List Int :=
  ctx.people.map fun p => (load p.email).get key

/-- `max(count) − min(count)` of a category, per the load map. -/
def loadSpread (ctx : FillCtx) (load : LoadMap) (key : ShiftKey) : Int :=
  listMaxI (balCounts ctx load key) - listMinI (balCounts ctx load key)

/-- The move search of one balancer iteration: direct transfer first,
else triangle rotation; `none` when neither strategy applies. -/
def balanceMove (ctx : FillCtx) (key : ShiftKey) (sched : List SlotRec) (load : LoadMap) :
    Option (List SlotRec × LoadMap) :=
  let counts := balCounts ctx load key
  let minC := listMinI counts
  let maxC := listMaxI counts
  let donors := ctx.people.filter fun p => (load p.email).get key == maxC
  let recipients := ctx.people.filter fun p => (load p.email).get key == minC
  match strat1 ctx key sched load donors recipients with
  | some st => some st
  | none => strat2 ctx key sched load donors recipients minC maxC

/-- The `while (madeChange && iterations < 500)` loop of one category;
also returns the unused fuel, so that hitting the iteration cap is
observable.  (On an empty roster both fold defaults are 0 and the spread
check stops immediately, matching the source's `Infinity`-valued
`Math.min()/Math.max()` comparison.) -/
def balanceCatLoop (ctx : FillCtx) (key : ShiftKey) :
    Nat → List SlotRec × LoadMap → (List SlotRec × LoadMap) × Nat
  | 0, st => (st, 0)
  | fuel + 1, st =>
    if loadSpread ctx st.2 key ≤ 1 then (st, fuel + 1)
    else
      match balanceMove ctx key st.1 st.2 with
      | some st2 => balanceCatLoop ctx key fuel st2
      | none => (st, fuel + 1)

def shiftKeyOrder : List ShiftKey :=
  [.weekday_primary, .weekend_primary, .weekday_secondary, .weekend_secondary]

/-- `balanceShifts`: the four categories in source order, up to 500
iterations each. -/
def balanceShifts (ctx : FillCtx) (st : List SlotRec × LoadMap) : List SlotRec × LoadMap :=
  shiftKeyOrder.foldl (fun st k => (balanceCatLoop ctx k 500 st).1) st

/-! ### `generateSchedule` -/

/-- The context of a run. -/
def mkCtx (s : Scheduler) : FillCtx :=
  ⟨s.people, s.prefs, calculateTargetShifts s⟩

/-- `generateSchedule`.  The returned scheduler is the post-call state
(the source mutates `this`): unchanged on the two pre-flight errors,
holding the partial schedule on a mid-fill impossibility error, and
holding the final schedule on success.  The fairness report of the
source is a read-only projection of the final state computed after all
mutations and is not modelled. -/
def generateSchedule (s : Scheduler) : Scheduler × Except SchedErr Unit :=
  let need := s.primaryCount + s.secondaryCount
  if s.people.length < need then (s, .error (.capacity need))
  else
    match s.rangeStart, s.rangeEnd with
    | none, _ => (s, .error .noRange)
    | _, none => (s, .error .noRange)
    | some _, some _ =>
      let ctx := mkCtx s
      let slots := sortByCmp slotCmp (generateSlots s)
      let fr := runFill ctx slots
      match fr.err with
      | some e => ({ s with schedule := fr.sched }, .error e)
      | none =>
        let o := optimizeWithSwaps ctx (fr.sched, fr.load)
        let b := balanceShifts ctx o
        ({ s with schedule := b.1 }, .ok ())

/-! ### Roster management and exports -/

/-- `removePerson(email)`: filters the roster and deletes the preference
entry; the source signals nothing when the email is unknown. -/
def removePerson (s : Scheduler) (email : String) : Scheduler :=
  { s with people := s.people.filter fun p => p.email != email,
           prefs := s.prefs.filter fun kv => kv.1 != email }

/-- The behaviour claim C6 ascribes to `removePerson` (written from the
words of the spec, for refinement comparison only, not from the
source): an unknown email surfaces a configuration error. -/
def removePersonClaimed (s : Scheduler) (email : String) : Except String Scheduler :=
  if s.people.any fun p => p.email == email then Except.ok (removePerson s email)
  else Except.error "Person not found"

def roleStr : Role → String
  | .primary => "primary"
  | .secondary => "secondary"

def roleCap : Role → String
  | .primary => "Primary"
  | .secondary => "Secondary"

/-- `slot.slot.toUpperCase()`: the uppercase slot label of index `i`. -/
def upperLabel (i : Nat) : String := String.mk [Char.ofNat (65 + i)]

def csvHeader : List String :=
  ["Date", "Day", "Role", "Slot", "Weekend", "Duration (hours)", "Person Name", "Person Email"]

/-- One `exportToCSV` data row. -/
def csvRow (s : SlotRec) : List String :=
  [dayStr s.day, getDayName s.day, roleStr s.role, upperLabel s.slotIndex,
   if s.isWeekend then "Yes" else "No", intToDecString s.duration,
   match s.assigned with | some p => p.name | none => "UNASSIGNED",
   match s.assigned with | some p => p.email | none => ""]

/-- The rows of `exportToCSV` (header plus one row per schedule slot). -/
def exportToCSVRows (s : Scheduler) : List (List String) :=
  csvHeader :: s.schedule.map csvRow

/-- `exportToCSV()`: the joined flat text. -/
def exportToCSV (s : Scheduler) : String :=
  String.intercalate "\n" ((exportToCSVRows s).map (String.intercalate ","))

def w2wHeader : List String :=
  ["Date", "Day", "Start Time", "End Time", "Position", "Employee Name", "Employee Email"]

/-- One `exportForWhenToWork` data row for an assigned slot. -/
def w2wRow (team : String) (s : SlotRec) (p : Person) : List String :=
  [dayStr s.day, getDayName s.day, "8:00 PM",
   if s.isWeekend && s.role = .primary then "8:00 PM" else "8:00 AM",
   team ++ " - " ++ roleCap s.role ++ " " ++ upperLabel s.slotIndex,
   p.name, p.email]

/-- The rows of `exportForWhenToWork` (the source skips slots with no
assigned person with a `continue`). -/
def exportForWhenToWorkRows (s : Scheduler) (team : String) : List (List String) :=
  w2wHeader :: (s.schedule.filterMap fun sl => sl.assigned.map (w2wRow team sl))

/-- `exportForWhenToWork(teamName)`: every cell quoted, comma-joined,
newline-joined. -/
def exportForWhenToWork (s : Scheduler) (team : String) : String :=
  String.intercalate "\n" ((exportForWhenToWorkRows s team).map fun row =>
    String.intercalate "," (row.map fun cell => "\"" ++ cell ++ "\""))

/-! ### Definitions used by the claim statements -/

/-- The clash relation of the no-double-booking property: two slots may
not be assigned to the same person on the same calendar day. -/
def SlotRec.noClashWith (a b : SlotRec) : Prop :=
  a.aEmail.isSome → a.aEmail = b.aEmail → a.day ≠ b.day

instance (a b : SlotRec) : Decidable (a.noClashWith b) := by
  unfold SlotRec.noClashWith; infer_instance

/-- No person holds two slots of the schedule on the same calendar day
(equal calendar-day strings are equal `day` numbers). -/
def NoDoubleDay (sched : List SlotRec) : Prop :=
  sched.Pairwise SlotRec.noClashWith

/-- Number (as a JS number) of schedule slots of category `k` assigned
to the email `e`. -/
def slotCountI (sched : List SlotRec) (e : String) (k : ShiftKey) : Int :=
  (sched.map fun s => if s.aEmail = some e ∧ getShiftTypeKey s = k then (1 : Int) else 0).sum

/-- Total duration of the schedule slots assigned to the email `e`. -/
def slotHoursI (sched : List SlotRec) (e : String) : Int :=
  (sched.map fun s => if s.aEmail = some e then s.duration else 0).sum

/-- The load map agrees with the schedule: every category counter is the
number of that person's slots of the category, and the hours counter is
the sum of the durations of their slots. -/
def LoadOk (sched : List SlotRec) (load : LoadMap) : Prop :=
  ∀ e k, (load e).get k = slotCountI sched e k ∧ (load e).total_hours = slotHoursI sched e

/-- `max(count) − min(count)` of a category over the roster, with the
counts recomputed from the schedule itself. -/
def schedSpread (people : List Person) (sched : List SlotRec) (k : ShiftKey) : Int :=
  listMaxI (people.map fun p => slotCountI sched p.email k)
    - listMinI (people.map fun p => slotCountI sched p.email k)

/-- Total number of slots of category `k` in a schedule. -/
def schedCatTotal (sched : List SlotRec) (k : ShiftKey) : Nat :=
  (sched.filter fun s => getShiftTypeKey s == k).length

/-- The cost formula exactly as claim C5 words it (written from the
claim, for refinement comparison with `calculateCost`): a plain sum in
which the `+500` needs only `count ≥ min` and the `+100000` term is
added on top of the `count × 1000` term. -/
def claimedCalculateCost (prefs : List (String × PrefPair)) (targets : Targets)
    (sched : List SlotRec) (load : LoadMap) (email : String) (slot : SlotRec) : Int :=
  let key := getShiftTypeKey slot
  let personCount := (load email).get key
  let t := targets key
  personCount * 1000
    + (if personCount ≥ t.min then 500 else 0)
    + (if personCount ≥ t.max then 100000 else 0)
    + prefAdj prefs email slot.day
    + (if slot.isWeekend then 2 else 0)
    + (if (getSameDayShifts sched email slot.day).length > 0 then 1000000 else 0)

/-- The amended C5 cost formula: when the count is at or above the
category max the fairness part is 100000 alone; otherwise it is
`count × 1000`, plus 500 when the count is at or above a positive
category min. -/
def amendedCalculateCost (prefs : List (String × PrefPair)) (targets : Targets)
    (sched : List SlotRec) (load : LoadMap) (email : String) (slot : SlotRec) : Int :=
  let key := getShiftTypeKey slot
  let personCount := (load email).get key
  let t := targets key
  (if personCount ≥ t.max then 100000 else 0)
    + (if ¬personCount ≥ t.max then personCount * 1000 else 0)
    + (if ¬personCount ≥ t.max ∧ personCount ≥ t.min ∧ 0 < t.min then 500 else 0)
    + prefAdj prefs email slot.day
    + (if slot.isWeekend then 2 else 0)
    + (if (getSameDayShifts sched email slot.day).length > 0 then 1000000 else 0)

/-! ### Concrete states used by witnesses and counterexamples -/

/-- A tiny roster member. -/
def perA : Person := ⟨"Alice", "a"⟩

def perB : Person := ⟨"Bob", "b"⟩

/-- Scheduler with one roster member and their empty preference record
(the state `addPerson` would build). -/
def schedOneP : Scheduler :=
  { people := [perA], prefs := [("a", ⟨[], []⟩)], rangeStart := some 20094,
    rangeEnd := some 20095, schedule := [], primaryCount := 1, secondaryCount := 1 }

/-- A scheduler whose stored schedule has exactly one (unassigned)
slot. -/
def schedUnassigned : Scheduler :=
  { people := [perA], prefs := [], rangeStart := none, rangeEnd := none,
    schedule := [mkPrimarySlot 20094 0], primaryCount := 1, secondaryCount := 1 }

/-- Targets with `min = max = 1` for every category (used by the C5
counterexample). -/
def cexTargets : Targets := fun _ => ⟨2, 1, 1⟩

/-- A load map giving every email one weekday-primary shift. -/
def cexLoad : LoadMap := fun _ => ⟨1, 0, 0, 0, 12⟩

/-- A weekday (Monday 2025-01-06) primary slot. -/
def cexSlot : SlotRec := mkPrimarySlot 20094 0

/-- Fill context for the C3 witness: two people, both of whom mark the
single weekday 2025-01-06 notPreferred; the category min is 0, so the
strict pool is empty although both are free that day. -/
def c3Ctx : FillCtx :=
  { people := [perA, perB],
    prefs := [("a", ⟨[], [20094]⟩), ("b", ⟨[], [20094]⟩)],
    targets := fun _ => ⟨1, 0, 1⟩ }

def c3St : FillSt := ⟨[], LoadMap.zero, none⟩

/-- The prefix folds of `balanceShifts`: the state after balancing the
given category list in order. -/
def balanceUpTo (ctx : FillCtx) (keys : List ShiftKey) (st : List SlotRec × LoadMap) :
    List SlotRec × LoadMap :=
  keys.foldl (fun st k => (balanceCatLoop ctx k 500 st).1) st

/-- Roster member with the email doubling as the name. -/
def mkP (e : String) : Person := ⟨e, e⟩

/-- The C1 counterexample scheduler: six people, three primary and two
secondary slots per day, Thursday 2025-01-09 (day 20097) through Monday
2025-01-13, with the listed notPreferred/preferred dates.  Its run
completes normally, the final weekday-secondary counts are
[1, 1, 0, 2, 1, 1], and the balancer is left stuck: every transfer or
rotation for the category is blocked by same-day conflicts. -/
def c1Sched : Scheduler :=
  { people := ["a", "b", "c", "d", "e", "f"].map mkP,
    prefs := [("a", ⟨[], [20100, 20101]⟩), ("c", ⟨[], [20097]⟩),
              ("d", ⟨[], [20101]⟩), ("e", ⟨[20097], [20101]⟩)],
    rangeStart := some 20097, rangeEnd := some 20101,
    schedule := [], primaryCount := 3, secondaryCount := 2 }

/-- A small two-person state whose full run is cheap to evaluate (used
by witnesses of the invariant claims). -/
def tinySched : Scheduler :=
  { people := [perA, perB], prefs := [("a", ⟨[], []⟩), ("b", ⟨[], []⟩)],
    rangeStart := some 20094, rangeEnd := some 20095,
    schedule := [], primaryCount := 1, secondaryCount := 0 }

/-! ### Helper lemmas -/

theorem mem_insertByCmp {α : Type} {cmp : α → α → Int} {x a : α} {l : List α} :
    a ∈ insertByCmp cmp x l ↔ a = x ∨ a ∈ l := by
  induction l with
  | nil => simp [insertByCmp]
  | cons y ys ih =>
    simp only [insertByCmp]
    split
    · simp [List.mem_cons]
    · simp only [List.mem_cons, ih]
      tauto

theorem length_insertByCmp {α : Type} (cmp : α → α → Int) (x : α) (l : List α) :
    (insertByCmp cmp x l).length = l.length + 1 := by
  induction l with
  | nil => rfl
  | cons y ys ih =>
    simp only [insertByCmp]
    split
    · simp
    · simp [ih]

theorem mem_sortByCmp_aux {α : Type} {cmp : α → α → Int} {a : α} :
    ∀ (l acc : List α),
      (a ∈ List.foldl (fun acc x => insertByCmp cmp x acc) acc l ↔ a ∈ acc ∨ a ∈ l)
  | [], acc => by simp
  | x :: xs, acc => by
    simp only [List.foldl_cons, mem_sortByCmp_aux xs, mem_insertByCmp, List.mem_cons]
    tauto

theorem mem_sortByCmp {α : Type} {cmp : α → α → Int} {a : α} {l : List α} :
    a ∈ sortByCmp cmp l ↔ a ∈ l := by
  unfold sortByCmp
  simp [mem_sortByCmp_aux]

theorem length_sortByCmp_aux {α : Type} {cmp : α → α → Int} :
    ∀ (l acc : List α),
      (List.foldl (fun acc x => insertByCmp cmp x acc) acc l).length = acc.length + l.length
  | [], acc => by simp
  | x :: xs, acc => by
    simp only [List.foldl_cons, length_sortByCmp_aux xs, length_insertByCmp,
      List.length_cons]
    omega

theorem length_sortByCmp {α : Type} (cmp : α → α → Int) (l : List α) :
    (sortByCmp cmp l).length = l.length := by
  unfold sortByCmp
  simp [length_sortByCmp_aux]

theorem foldl_min_mem : ∀ (ys : List Int) (x : Int), List.foldl min x ys ∈ x :: ys := by
  intro ys
  induction ys with
  | nil => intro x; simp
  | cons y ys ih =>
    intro x
    simp only [List.foldl_cons]
    rcases List.mem_cons.mp (ih (min x y)) with h | h
    · rw [h]
      rcases le_total x y with hxy | hxy
      · simp [min_eq_left hxy]
      · simp [min_eq_right hxy, List.mem_cons]
    · simp [List.mem_cons, h]

/-- The default minimum of a list is attained by a member (nonempty
lists). -/
theorem listMinI_mem {l : List Int} (hl : l ≠ []) : listMinI l ∈ l := by
  match l with
  | x :: xs =>
    unfold listMinI
    exact foldl_min_mem xs x

/-! ### Claim C8: the duration rule of the slot generator -/

/-- C8: every slot produced by `generateSlots` has duration 24 iff it is
a primary slot on a weekend night (Friday or Saturday), and duration 12
otherwise. -/
theorem c8_duration_rule (s : Scheduler) (slot : SlotRec) (h : slot ∈ generateSlots s) :
    (slot.duration = 24 ↔ (slot.role = Role.primary ∧ isWeekendNight slot.day = true)) ∧
    (¬(slot.role = Role.primary ∧ isWeekendNight slot.day = true) → slot.duration = 12) := by
  unfold generateSlots at h
  simp only [List.mem_flatMap, List.mem_append, List.mem_map, List.mem_range] at h
  obtain ⟨z, _, h⟩ := h
  rcases h with ⟨i, _, rfl⟩ | ⟨i, _, rfl⟩
  · unfold mkPrimarySlot
    by_cases hw : isWeekendNight z <;> simp [hw]
  · unfold mkSecondarySlot
    simp

/-- C8 witness: the theorem applied to a concrete generated slot. -/
theorem c8_duration_rule_witness :
    mkPrimarySlot 20094 0 ∈ generateSlots schedOneP ∧
    ((mkPrimarySlot 20094 0).duration = 24 ↔
      ((mkPrimarySlot 20094 0).role = Role.primary ∧
        isWeekendNight (mkPrimarySlot 20094 0).day = true)) ∧
    (¬((mkPrimarySlot 20094 0).role = Role.primary ∧
        isWeekendNight (mkPrimarySlot 20094 0).day = true) →
      (mkPrimarySlot 20094 0).duration = 12) :=
  ⟨by decide, c8_duration_rule schedOneP (mkPrimarySlot 20094 0) (by decide)⟩

/-! ### Claim C4: capacity precondition -/

/-- C4: with a roster strictly smaller than `primaryCount +
secondaryCount`, `generateSchedule` fails with the capacity error and
returns the state unchanged (in particular the stored schedule is
untouched). -/
theorem c4_capacity_error (s : Scheduler)
    (h : s.people.length < s.primaryCount + s.secondaryCount) :
    generateSchedule s =
      (s, Except.error (SchedErr.capacity (s.primaryCount + s.secondaryCount))) := by
  unfold generateSchedule
  simp [h]

/-- C4 witness: one person, one primary and one secondary slot per
day. -/
theorem c4_capacity_error_witness :
    schedOneP.people.length < schedOneP.primaryCount + schedOneP.secondaryCount ∧
    generateSchedule schedOneP = (schedOneP, Except.error (SchedErr.capacity 2)) :=
  ⟨by decide, c4_capacity_error schedOneP (by decide)⟩

/-! ### Claim C5: the cost formula -/

/-- C5 counterexample: with the person at the category max (count 1,
min 1, max 1, neutral preferences, weekday, no same-day slot),
`calculateCost` returns 100000 — the at-max penalty replaces the
`count × 1000` and `+500` terms — while the claimed plain sum returns
101500. -/
theorem c5_counterexample :
    calculateCost [] cexTargets [] cexLoad "a" cexSlot = 100000 ∧
    claimedCalculateCost [] cexTargets [] cexLoad "a" cexSlot = 101500 ∧
    calculateCost [] cexTargets [] cexLoad "a" cexSlot ≠
      claimedCalculateCost [] cexTargets [] cexLoad "a" cexSlot := by
  refine ⟨by decide, by decide, by decide⟩

/-- C5 amended: `calculateCost` is the claimed sum with two repairs: at
or above the category max the fairness contribution is the flat 100000
alone (no `count × 1000`, no `+500`), and the `+500` term additionally
requires the category min to be positive. -/
theorem c5_cost_formula (prefs : List (String × PrefPair)) (targets : Targets)
    (sched : List SlotRec) (load : LoadMap) (email : String) (slot : SlotRec) :
    calculateCost prefs targets sched load email slot
      = amendedCalculateCost prefs targets sched load email slot := by
  unfold calculateCost amendedCalculateCost
  by_cases h : (load email).get (getShiftTypeKey slot) ≥ (targets (getShiftTypeKey slot)).max <;>
    simp [h]

/-! ### Claim C6: removing an unknown email -/

/-- C6 counterexample: removing an email that is not in the roster is a
silent no-op — the state is returned unchanged and nothing fails —
whereas the claimed behaviour surfaces a configuration error. -/
theorem c6_counterexample :
    removePerson schedOneP "zz" = schedOneP ∧
    removePersonClaimed schedOneP "zz" = Except.error "Person not found" := by
  constructor <;> rfl

/-- C6 amended: `removePerson` with an email that is neither a roster
email nor a preference key returns the state unchanged; no error is
surfaced. -/
theorem c6_remove_unknown_noop (s : Scheduler) (email : String)
    (h1 : ∀ p ∈ s.people, p.email ≠ email) (h2 : ∀ kv ∈ s.prefs, kv.1 ≠ email) :
    removePerson s email = s := by
  unfold removePerson
  have hp : s.people.filter (fun p => p.email != email) = s.people := by
    rw [List.filter_eq_self]
    intro a ha
    simpa using h1 a ha
  have hq : s.prefs.filter (fun kv => kv.1 != email) = s.prefs := by
    rw [List.filter_eq_self]
    intro a ha
    simpa using h2 a ha
  rw [hp, hq]

/-- C6 amended witness. -/
theorem c6_remove_unknown_noop_witness : removePerson schedOneP "zz" = schedOneP :=
  c6_remove_unknown_noop schedOneP "zz" (by decide) (by decide)

/-! ### Claim C7: export row counts -/

/-- C7 counterexample: on a schedule holding exactly one unassigned
slot, `exportToCSV` emits a data row for it (2 rows with the header) but
`exportForWhenToWork` omits it (header only) — so the claim fails for
`exportForWhenToWork`. -/
theorem c7_counterexample :
    schedUnassigned.schedule.length = 1 ∧
    (exportToCSVRows schedUnassigned).length = 2 ∧
    (exportForWhenToWorkRows schedUnassigned "RAOD").length = 1 := by
  refine ⟨rfl, rfl, rfl⟩

/-- C7 amended: `exportToCSV` emits one data row per slot, rendering an
unassigned slot with the `UNASSIGNED` sentinel in the person-name
column, while `exportForWhenToWork` emits data rows only for the
assigned slots. -/
theorem c7_export_rows (s : Scheduler) (team : String) :
    (exportToCSVRows s).length = s.schedule.length + 1 ∧
    (∀ sl ∈ s.schedule, sl.assigned = none → (csvRow sl).get? 6 = some "UNASSIGNED") ∧
    (exportForWhenToWorkRows s team).length
      = (s.schedule.filter fun sl => sl.assigned.isSome).length + 1 := by
  refine ⟨by simp [exportToCSVRows], ?_, ?_⟩
  · intro sl _ h
    simp [csvRow, h]
  · simp only [exportForWhenToWorkRows, List.length_cons]
    have : ∀ l : List SlotRec,
        (l.filterMap fun sl => sl.assigned.map (w2wRow team sl)).length
          = (l.filter fun sl => sl.assigned.isSome).length := by
      intro l
      induction l with
      | nil => rfl
      | cons a l ih =>
        cases h : a.assigned <;>
          simp [List.filterMap_cons, List.filter_cons, h, ih]
    rw [this]

/-- C7 amended witness. -/
theorem c7_export_rows_witness :
    (exportToCSVRows schedUnassigned).length = schedUnassigned.schedule.length + 1 ∧
    (∀ sl ∈ schedUnassigned.schedule, sl.assigned = none →
      (csvRow sl).get? 6 = some "UNASSIGNED") ∧
    (exportForWhenToWorkRows schedUnassigned "RAOD").length
      = (schedUnassigned.schedule.filter fun sl => sl.assigned.isSome).length + 1 :=
  c7_export_rows schedUnassigned "RAOD"

/-! ### Claim C3: coverage-override on an empty strict pool -/

theorem snd_mem_enumFrom {α : Type} :
    ∀ (l : List α) (n : Nat) (ia : Nat × α), ia ∈ l.enumFrom n → ia.2 ∈ l := by
  intro l
  induction l with
  | nil => simp [List.enumFrom]
  | cons a l ih =>
    intro n ia h
    simp only [List.enumFrom, List.mem_cons] at h
    rcases h with rfl | h
    · simp
    · exact List.mem_cons_of_mem _ (ih _ _ h)

theorem snd_mem_enum {α : Type} {l : List α} {ia : Nat × α} (h : ia ∈ l.enum) : ia.2 ∈ l :=
  snd_mem_enumFrom l 0 ia h

/-- The ranking of a nonempty pool always yields a winner, and the
winner belongs to the pool. -/
theorem pickBest_spec (ctx : FillCtx) (fair : List Person) (slot : SlotRec)
    (h : fair ≠ []) : ∃ p, pickBest ctx fair slot = some p ∧ p ∈ fair := by
  unfold pickBest
  have hlen : (sortByCmp rankedCmp (fair.enum.map fun ip =>
      ({ person := ip.2, prefCost := prefAdj ctx.prefs ip.2.email slot.day,
         rotatedIndex := ((ip.1 : Int) + (dateNum slot.day + slotNumOf slot).emod (fair.length : Int)).emod (fair.length : Int) } : Ranked))).length = fair.length := by
    rw [length_sortByCmp, List.length_map, List.enum_length]
  cases hs : sortByCmp rankedCmp (fair.enum.map fun ip =>
      ({ person := ip.2, prefCost := prefAdj ctx.prefs ip.2.email slot.day,
         rotatedIndex := ((ip.1 : Int) + (dateNum slot.day + slotNumOf slot).emod (fair.length : Int)).emod (fair.length : Int) } : Ranked)) with
  | nil =>
    rw [hs] at hlen
    exact absurd (List.length_eq_zero.mp hlen.symm) h
  | cons r rs =>
    refine ⟨r.person, by simp [hs], ?_⟩
    have hr : r ∈ sortByCmp rankedCmp (fair.enum.map fun ip =>
        ({ person := ip.2, prefCost := prefAdj ctx.prefs ip.2.email slot.day,
           rotatedIndex := ((ip.1 : Int) + (dateNum slot.day + slotNumOf slot).emod (fair.length : Int)).emod (fair.length : Int) } : Ranked)) := by
      rw [hs]; exact List.mem_cons_self r rs
    rcases List.mem_map.mp (mem_sortByCmp.mp hr) with ⟨ip, hip, hre⟩
    have hmem : ip.2 ∈ fair := snd_mem_enum hip
    subst hre
    exact hmem

/-- The fair pool refines a nonempty candidate pool nontrivially: the
minimum count is attained. -/
theorem fair_ne_nil (load : LoadMap) (key : ShiftKey) (cands : List Person)
    (h : cands ≠ []) :
    (cands.filter fun p =>
      (load p.email).get key == listMinI (cands.map fun p => (load p.email).get key)) ≠ [] := by
  have hm : listMinI (cands.map fun p => (load p.email).get key)
      ∈ cands.map fun p => (load p.email).get key :=
    listMinI_mem (by simpa using h)
  rcases List.mem_map.mp hm with ⟨p, hp, he⟩
  intro hnil
  have := List.filter_eq_nil_iff.mp hnil p hp
  simp [he] at this

/-- C3: when the strict candidate pool of a fill step is empty but
somebody is still free that calendar day, the step does not fail: the
slot is appended assigned to a member of the relaxed pool and carries
the coverage-override warning flag. -/
theorem c3_coverage_override (ctx : FillCtx) (st : FillSt) (slot : SlotRec)
    (hE : st.err = none)
    (hstrict : strictCands ctx st.sched st.load slot = [])
    (hrelax : relaxedCands ctx st.sched slot ≠ []) :
    (fillStep ctx st slot).err = none ∧
    ∃ p ∈ relaxedCands ctx st.sched slot,
      (fillStep ctx st slot).sched
        = st.sched ++ [{ slot with assigned := some p, warning := true }] := by
  have hfair := fair_ne_nil st.load (getShiftTypeKey slot)
    (relaxedCands ctx st.sched slot) hrelax
  rcases pickBest_spec ctx _ slot hfair with ⟨p, hpick, hpmem⟩
  have hpm : p ∈ relaxedCands ctx st.sched slot := (List.mem_filter.mp hpmem).1
  have hstep : fillStep ctx st slot
      = assignFromPool ctx st slot (relaxedCands ctx st.sched slot) true := by
    unfold fillStep
    rw [hE]
    simp [hstrict, List.isEmpty_iff, hrelax]
  rw [hstep]
  unfold assignFromPool
  dsimp only
  rw [hpick]
  exact ⟨rfl, p, hpm, rfl⟩

/-- C3 witness: both roster members mark the day notPreferred with the
category min at 0 (strict pool empty), both are free that day, and the
step assigns the slot with the warning flag. -/
theorem c3_coverage_override_witness :
    (fillStep c3Ctx c3St cexSlot).err = none ∧
    ∃ p ∈ relaxedCands c3Ctx c3St.sched cexSlot,
      (fillStep c3Ctx c3St cexSlot).sched
        = c3St.sched ++ [{ cexSlot with assigned := some p, warning := true }] :=
  c3_coverage_override c3Ctx c3St cexSlot rfl (by decide) (by decide)

/-! ### Claim C9: decimal print/parse lemmas -/

theorem digitVal_digitCh {n : Nat} (h : n < 10) : digitVal (digitCh n) = n := by
  interval_cases n <;> decide

theorem isDigitCh_digitCh {n : Nat} (h : n < 10) : isDigitCh (digitCh n) = true := by
  interval_cases n <;> decide

theorem natDecCharsAux_spec :
    ∀ (fuel n : Nat), n < fuel →
      natDecCharsAux fuel n ≠ [] ∧ (natDecCharsAux fuel n).all isDigitCh = true ∧
      ∀ a : Nat,
        (natDecCharsAux fuel n).foldl (fun a c => a * 10 + digitVal c) a
          = a * 10 ^ (natDecCharsAux fuel n).length + n := by
  intro fuel
  induction fuel with
  | zero => intro n h; omega
  | succ fuel ih =>
    intro n h
    by_cases hn : n < 10
    · refine ⟨by simp [natDecCharsAux, hn], by simp [natDecCharsAux, hn, isDigitCh_digitCh],
        fun a => ?_⟩
      simp [natDecCharsAux, hn, digitVal_digitCh hn]
    · have hda : n / 10 < fuel := by
        have h1 : n / 10 < n := Nat.div_lt_self (by omega) (by omega)
        omega
      obtain ⟨hne, hall, hfold⟩ := ih (n / 10) hda
      have hmod : n % 10 < 10 := Nat.mod_lt n (by omega)
      refine ⟨?_, ?_, fun a => ?_⟩
      · simp [natDecCharsAux, hn]
      · simp only [natDecCharsAux, hn, if_false, List.all_append, List.all_cons,
          List.all_nil, Bool.and_true, Bool.and_eq_true]
        exact ⟨by simpa using hall, isDigitCh_digitCh hmod⟩
      · simp only [natDecCharsAux, hn, if_false, List.foldl_append, List.foldl_cons,
          List.foldl_nil, List.length_append, List.length_cons, List.length_nil]
        rw [hfold a, digitVal_digitCh hmod]
        have : a * 10 ^ ((natDecCharsAux fuel (n / 10)).length + (0 + 1))
            = (a * 10 ^ (natDecCharsAux fuel (n / 10)).length) * 10 := by ring
        rw [this]
        omega

theorem parseDigits_natDecChars (n : Nat) : parseDigits (natDecChars n) = some n := by
  obtain ⟨hne, hall, hfold⟩ := natDecCharsAux_spec (n + 1) n (Nat.lt_succ_self n)
  have hne2 : natDecChars n ≠ [] := hne
  have hall2 : (natDecChars n).all isDigitCh = true := hall
  have hcond : natDecChars n ≠ [] ∧ (natDecChars n).all isDigitCh = true := ⟨hne2, hall2⟩
  unfold parseDigits
  rw [if_pos hcond]
  unfold digitsVal
  rw [show natDecChars n = natDecCharsAux (n + 1) n from rfl, hfold 0]
  simp

theorem ne_dash_of_digit {c : Char} (h : isDigitCh c = true) : c ≠ '-' := by
  intro he
  subst he
  exact absurd h (by decide)

theorem ne_plus_of_digit {c : Char} (h : isDigitCh c = true) : c ≠ '+' := by
  intro he
  subst he
  exact absurd h (by decide)

theorem parseIntJS_of_digits {cs : List Char} (h1 : cs ≠ []) (h2 : cs.all isDigitCh = true) :
    parseIntJS cs = (parseDigits cs).map (fun n => (n : Int)) := by
  match cs with
  | c :: rest =>
    have hc : isDigitCh c = true := by
      simp only [List.all_cons, Bool.and_eq_true] at h2
      exact h2.1
    simp [parseIntJS, ne_dash_of_digit hc, ne_plus_of_digit hc]

theorem parseIntJS_natDecChars (n : Nat) : parseIntJS (natDecChars n) = some (n : Int) := by
  obtain ⟨hne, hall, _⟩ := natDecCharsAux_spec (n + 1) n (Nat.lt_succ_self n)
  have hne2 : natDecChars n ≠ [] := hne
  have hall2 : (natDecChars n).all isDigitCh = true := hall
  rw [parseIntJS_of_digits hne2 hall2, parseDigits_natDecChars]
  rfl

theorem intToDecChars_nonneg {i : Int} (h : 0 ≤ i) :
    intToDecChars i = natDecChars i.natAbs := by
  unfold intToDecChars
  rw [if_neg (by omega)]

theorem parseIntJS_intToDecChars {i : Int} (h : 0 ≤ i) :
    parseIntJS (intToDecChars i) = some i := by
  rw [intToDecChars_nonneg h, parseIntJS_natDecChars, Int.natAbs_of_nonneg h]

theorem digitsVal_cons_zero (cs : List Char) : digitsVal ('0' :: cs) = digitsVal cs := by
  unfold digitsVal
  simp [show digitVal '0' = 0 from by decide]

theorem parseIntJS_pad2 {i : Int} (h : 0 ≤ i) : parseIntJS (pad2 i) = some i := by
  unfold pad2
  dsimp only
  split
  · rw [intToDecChars_nonneg h]
    obtain ⟨hne, hall, _⟩ := natDecCharsAux_spec (i.natAbs + 1) i.natAbs (Nat.lt_succ_self _)
    have hall1 : (natDecChars i.natAbs).all isDigitCh = true := hall
    have hall2 : ('0' :: natDecChars i.natAbs).all isDigitCh = true := by
      simp only [List.all_cons, Bool.and_eq_true]
      exact ⟨by decide, hall1⟩
    rw [parseIntJS_of_digits (by simp) hall2]
    have hcond : ('0' :: natDecChars i.natAbs) ≠ [] ∧
        ('0' :: natDecChars i.natAbs).all isDigitCh = true := ⟨by simp, hall2⟩
    unfold parseDigits
    rw [if_pos hcond, digitsVal_cons_zero]
    have h2 := parseDigits_natDecChars i.natAbs
    have hne2 : natDecChars i.natAbs ≠ [] := hne
    have hcond2 : natDecChars i.natAbs ≠ [] ∧
        (natDecChars i.natAbs).all isDigitCh = true := ⟨hne2, hall1⟩
    unfold parseDigits at h2
    rw [if_pos hcond2] at h2
    simp only [Option.some.injEq] at h2
    simp [h2, Int.natAbs_of_nonneg h]
  · exact parseIntJS_intToDecChars h

theorem all_ne_dash_of_digits {cs : List Char} (h : cs.all isDigitCh = true) :
    ∀ c ∈ cs, c ≠ '-' := by
  intro c hc
  exact ne_dash_of_digit (by
    rw [List.all_eq_true] at h
    exact h c hc)

theorem splitOnDash_no_dash {xs : List Char} (h : ∀ c ∈ xs, c ≠ '-') :
    splitOnDash xs = [xs] := by
  induction xs with
  | nil => rfl
  | cons c cs ih =>
    have hc : c ≠ '-' := h c (List.mem_cons_self c cs)
    have hrest := ih fun x hx => h x (List.mem_cons_of_mem c hx)
    simp [splitOnDash, hc, hrest]

theorem splitOnDash_append {xs ys : List Char} (h : ∀ c ∈ xs, c ≠ '-') :
    splitOnDash (xs ++ '-' :: ys) = xs :: splitOnDash ys := by
  induction xs with
  | nil => simp [splitOnDash]
  | cons c cs ih =>
    have hc : c ≠ '-' := h c (List.mem_cons_self c cs)
    have hrest := ih fun x hx => h x (List.mem_cons_of_mem c hx)
    simp [splitOnDash, hc, hrest]

/-! ### Claim C9: calendar-normalization lemmas -/

/-- A successful day walk from a month in range returns an in-range
calendar date. -/
theorem normDayWalk_valid :
    ∀ (fuel : Nat) (y m d : Int), 1 ≤ m → m ≤ 12 →
      ∀ {c : Civil}, normDayWalk fuel y m d = some c →
        (1 ≤ c.month ∧ c.month ≤ 12) ∧ 1 ≤ c.day ∧ c.day ≤ monthLen c.year c.month := by
  intro fuel
  induction fuel with
  | zero => intro y m d _ _ c h; exact absurd h (by simp [normDayWalk])
  | succ fuel ih =>
    intro y m d hm1 hm2 c h
    unfold normDayWalk at h
    by_cases h1 : d < 1
    · rw [if_pos h1] at h
      by_cases hm : m = 1
      · exact ih _ _ _ (by simp [hm]) (by simp [hm]) h
      · exact ih _ _ _ (by simp [hm]; omega) (by simp [hm]; omega) h
    · rw [if_neg h1] at h
      by_cases h2 : d > monthLen y m
      · rw [if_pos h2] at h
        by_cases hm : m = 12
        · exact ih _ _ _ (by simp [hm]) (by simp [hm]) h
        · exact ih _ _ _ (by simp [hm]; omega) (by simp [hm]; omega) h
      · rw [if_neg h2] at h
        simp only [Option.some.injEq] at h
        subst h
        refine ⟨⟨hm1, hm2⟩, ?_, ?_⟩
        · show 1 ≤ d
          omega
        · show d ≤ monthLen y m
          omega

/-- A date already in range is returned unchanged by the day walk. -/
theorem normDayWalk_fixed (fuel : Nat) (y m d : Int)
    (hd1 : 1 ≤ d) (hd2 : d ≤ monthLen y m) :
    normDayWalk (fuel + 1) y m d = some ⟨y, m, d⟩ := by
  unfold normDayWalk
  rw [if_neg (by omega), if_neg (by omega)]

/-- `new Date(y, m-1, d)` of an in-range date with a year outside the
two-digit remap range is that date. -/
theorem jsNewDate_fixed (y m d : Int) (hy : ¬(0 ≤ y ∧ y ≤ 99))
    (hm1 : 1 ≤ m) (hm2 : m ≤ 12) (hd1 : 1 ≤ d) (hd2 : d ≤ monthLen y m) :
    jsNewDate y (m - 1) d = some ⟨y, m, d⟩ := by
  unfold jsNewDate
  rw [if_neg hy]
  have hdiv : (m - 1).ediv 12 = 0 := Int.ediv_eq_zero_of_lt (by omega) (by omega)
  have hmod : (m - 1).emod 12 = m - 1 := Int.emod_eq_of_lt (by omega) (by omega)
  rw [hdiv, hmod]
  have hfuel : d.natAbs + 420 = (d.natAbs + 419) + 1 := by omega
  rw [hfuel]
  have := normDayWalk_fixed (d.natAbs + 419) y (m - 1 + 1) d
  simp only [sub_add_cancel] at this ⊢
  rw [add_zero]
  exact this hd1 hd2

/-- Every civil date `jsNewDate` produces is in range. -/
theorem jsNewDate_valid {y m0 d : Int} {c : Civil} (h : jsNewDate y m0 d = some c) :
    (1 ≤ c.month ∧ c.month ≤ 12) ∧ 1 ≤ c.day ∧ c.day ≤ monthLen c.year c.month := by
  unfold jsNewDate at h
  have h0 : 0 ≤ m0.emod 12 := Int.emod_nonneg m0 (by omega)
  have h12 : m0.emod 12 < 12 := Int.emod_lt_of_pos m0 (by omega)
  exact normDayWalk_valid _ _ _ _ (by omega) (by omega) h

/-- Digit lists contain no separator. -/
theorem intToDecChars_no_dash {i : Int} (h : 0 ≤ i) : ∀ c ∈ intToDecChars i, c ≠ '-' := by
  rw [intToDecChars_nonneg h]
  obtain ⟨_, hall, _⟩ := natDecCharsAux_spec (i.natAbs + 1) i.natAbs (Nat.lt_succ_self _)
  exact all_ne_dash_of_digits hall

theorem pad2_no_dash {i : Int} (h : 0 ≤ i) : ∀ c ∈ pad2 i, c ≠ '-' := by
  unfold pad2
  dsimp only
  split
  · intro c hc
    rcases List.mem_cons.mp hc with rfl | hc
    · decide
    · exact intToDecChars_no_dash h c hc
  · exact intToDecChars_no_dash h

/-- Reduction of `parseLocalDateStr` once the split and the three
parses are known. -/
theorem parseLocalDateStr_of_parts {s : String} {ys ms ds : List Char} {y m d : Int}
    (hs : splitOnDash s.data = [ys, ms, ds])
    (hy : parseIntJS ys = some y) (hm : parseIntJS ms = some m)
    (hd : parseIntJS ds = some d) :
    parseLocalDateStr s = jsNewDate y (m - 1) d := by
  unfold parseLocalDateStr
  simp only [hs, hy, hm, hd]

/-- The split of the canonical rendering. -/
theorem splitOnDash_format (y m d : Int) (hy : 0 ≤ y) (hm : 0 ≤ m) (hd : 0 ≤ d) :
    splitOnDash (formatCivil ⟨y, m, d⟩).data = [intToDecChars y, pad2 m, pad2 d] := by
  show splitOnDash (intToDecChars y ++ '-' :: pad2 m ++ '-' :: pad2 d) = _
  have hassoc : intToDecChars y ++ '-' :: pad2 m ++ '-' :: pad2 d
      = intToDecChars y ++ '-' :: (pad2 m ++ '-' :: pad2 d) := by
    simp [List.append_assoc]
  rw [hassoc, splitOnDash_append (intToDecChars_no_dash hy),
    splitOnDash_append (pad2_no_dash hm), splitOnDash_no_dash (pad2_no_dash hd)]

/-- Parsing the canonical rendering of an in-range date with year ≥ 100
recovers the date. -/
theorem parseLocalDateStr_format (y m d : Int) (hy : 100 ≤ y)
    (hm1 : 1 ≤ m) (hm2 : m ≤ 12) (hd1 : 1 ≤ d) (hd2 : d ≤ monthLen y m) :
    parseLocalDateStr (formatCivil ⟨y, m, d⟩) = some ⟨y, m, d⟩ := by
  rw [parseLocalDateStr_of_parts (splitOnDash_format y m d (by omega) (by omega) (by omega))
    (parseIntJS_intToDecChars (by omega)) (parseIntJS_pad2 (by omega))
    (parseIntJS_pad2 (by omega))]
  exact jsNewDate_fixed y m d (by omega) hm1 hm2 hd1 hd2

/-- Every date `parseLocalDateStr` yields is in calendar range. -/
theorem parseLocalDateStr_valid {s : String} {c : Civil}
    (h : parseLocalDateStr s = some c) :
    (1 ≤ c.month ∧ c.month ≤ 12) ∧ 1 ≤ c.day ∧ c.day ≤ monthLen c.year c.month := by
  unfold parseLocalDateStr at h
  split at h
  · split at h
    · exact jsNewDate_valid h
    · exact absurd h (by simp)
  · exact absurd h (by simp)

/-- C9 corrected (amended): `normalizeDate` is idempotent on every
modelled input whose normalized year is at least 100 (outside the
ECMAScript two-digit-year remapping range); in particular the canonical
rendering of such a date maps to itself. -/
theorem c9_normalize_idempotent (s : String) (c : Civil)
    (h1 : parseLocalDateStr s = some c) (h2 : 100 ≤ c.year) :
    normalizeDate s = some (formatCivil c) ∧
    normalizeDate (formatCivil c) = some (formatCivil c) := by
  constructor
  · unfold normalizeDate
    rw [h1]
    rfl
  · obtain ⟨⟨hm1, hm2⟩, hd1, hd2⟩ := parseLocalDateStr_valid h1
    unfold normalizeDate
    have := parseLocalDateStr_format c.year c.month c.day h2 hm1 hm2 hd1 hd2
    rw [show (⟨c.year, c.month, c.day⟩ : Civil) = c from rfl] at this
    rw [this]
    rfl

/-- C9 witness: the canonical string "2025-01-03" already is its own
normalization, and normalizing it twice equals normalizing it once. -/
theorem c9_normalize_idempotent_witness :
    normalizeDate "2025-01-03" = some (formatCivil ⟨2025, 1, 3⟩) ∧
    normalizeDate (formatCivil ⟨2025, 1, 3⟩) = some (formatCivil ⟨2025, 1, 3⟩) :=
  c9_normalize_idempotent "2025-01-03" ⟨2025, 1, 3⟩ (by decide) (by decide)

/-- C9 counterexample: `normalizeDate` is not idempotent on every date
input.  The 3-part numeric string "100-0-1" normalizes (by ECMAScript
month underflow) to "99-12-01", whose year reparses through the
two-digit remap as 1999, so the second normalization gives
"1999-12-01" — a different string. -/
theorem c9_counterexample :
    normalizeDate "100-0-1" = some "99-12-01" ∧
    normalizeDate "99-12-01" = some "1999-12-01" ∧
    ((normalizeDate "100-0-1").bind normalizeDate ≠ normalizeDate "100-0-1") := by
  refine ⟨by decide, by decide, by decide⟩

/-! ### Record and map update lemmas -/

theorem updLoad_apply (load : LoadMap) (e : String) (f : LoadRec → LoadRec) (x : String) :
    updLoad load e f x = if x = e then f (load x) else load x := rfl

theorem get_addK_same (r : LoadRec) (k : ShiftKey) (v : Int) : (r.addK k v).get k = r.get k + v := by
  cases k <;> rfl

theorem get_addK_ne (r : LoadRec) {k k2 : ShiftKey} (v : Int) (h : k2 ≠ k) :
    (r.addK k v).get k2 = r.get k2 := by
  cases k <;> cases k2 <;> first | rfl | exact absurd rfl h

theorem get_addHours (r : LoadRec) (v : Int) (k : ShiftKey) : (r.addHours v).get k = r.get k := by
  cases k <;> rfl

theorem total_addK (r : LoadRec) (k : ShiftKey) (v : Int) :
    (r.addK k v).total_hours = r.total_hours := by
  cases k <;> rfl

theorem total_addHours (r : LoadRec) (v : Int) :
    (r.addHours v).total_hours = r.total_hours + v := rfl

theorem key_update (s : SlotRec) (a : Option Person) (w : Bool) :
    getShiftTypeKey { s with assigned := a, warning := w } = getShiftTypeKey s := rfl

theorem key_update2 (s : SlotRec) (a : Option Person) :
    getShiftTypeKey { s with assigned := a } = getShiftTypeKey s := rfl

/-! ### Sum-over-list surgery lemmas -/

theorem sum_map_set {l : List SlotRec} (f : SlotRec → Int) :
    ∀ (i : Nat) (old v : SlotRec), l.get? i = some old →
      ((l.set i v).map f).sum = (l.map f).sum - f old + f v := by
  induction l with
  | nil => intro i old v h; simp at h
  | cons a t ih =>
    intro i old v h
    cases i with
    | zero =>
      simp only [List.get?_cons_zero, Option.some.injEq] at h
      subst h
      simp only [List.set_cons_zero, List.map_cons, List.sum_cons]
      ring
    | succ j =>
      simp only [List.get?_cons_succ] at h
      simp only [List.set_cons_succ, List.map_cons, List.sum_cons, ih j old v h]
      ring

theorem slotCountI_append (l1 l2 : List SlotRec) (e : String) (k : ShiftKey) :
    slotCountI (l1 ++ l2) e k = slotCountI l1 e k + slotCountI l2 e k := by
  unfold slotCountI
  simp

theorem slotHoursI_append (l1 l2 : List SlotRec) (e : String) :
    slotHoursI (l1 ++ l2) e = slotHoursI l1 e + slotHoursI l2 e := by
  unfold slotHoursI
  simp

theorem slotCountI_single (s : SlotRec) (e : String) (k : ShiftKey) :
    slotCountI [s] e k = if s.aEmail = some e ∧ getShiftTypeKey s = k then 1 else 0 := by
  unfold slotCountI
  simp

theorem slotHoursI_single (s : SlotRec) (e : String) :
    slotHoursI [s] e = if s.aEmail = some e then s.duration else 0 := by
  unfold slotHoursI
  simp

theorem slotCountI_set {l : List SlotRec} {i : Nat} {old : SlotRec} (v : SlotRec)
    (h : l.get? i = some old) (e : String) (k : ShiftKey) :
    slotCountI (l.set i v) e k
      = slotCountI l e k
        - (if old.aEmail = some e ∧ getShiftTypeKey old = k then 1 else 0)
        + (if v.aEmail = some e ∧ getShiftTypeKey v = k then 1 else 0) :=
  sum_map_set _ i old v h

theorem slotHoursI_set {l : List SlotRec} {i : Nat} {old : SlotRec} (v : SlotRec)
    (h : l.get? i = some old) (e : String) :
    slotHoursI (l.set i v) e
      = slotHoursI l e
        - (if old.aEmail = some e then old.duration else 0)
        + (if v.aEmail = some e then v.duration else 0) :=
  sum_map_set _ i old v h

/-! ### Enumeration and conflict-scan lemmas -/

theorem get?_of_mem_enumFrom {α : Type} :
    ∀ (l : List α) (n : Nat) (ja : Nat × α), ja ∈ l.enumFrom n →
      n ≤ ja.1 ∧ l.get? (ja.1 - n) = some ja.2 := by
  intro l
  induction l with
  | nil => intro n ja h; simp [List.enumFrom] at h
  | cons a t ih =>
    intro n ja h
    simp only [List.enumFrom, List.mem_cons] at h
    rcases h with rfl | h
    · simp
    · obtain ⟨h1, h2⟩ := ih (n + 1) ja h
      refine ⟨by omega, ?_⟩
      have : ja.1 - n = (ja.1 - (n + 1)) + 1 := by omega
      rw [this, List.get?_cons_succ]
      exact h2

theorem get?_of_mem_enum {α : Type} {l : List α} {ja : Nat × α} (h : ja ∈ l.enum) :
    l.get? ja.1 = some ja.2 := by
  have := get?_of_mem_enumFrom l 0 ja h
  simpa using this.2

theorem mem_enumFrom_of_get? {α : Type} :
    ∀ (l : List α) (n j : Nat) (a : α), l.get? j = some a → (n + j, a) ∈ l.enumFrom n := by
  intro l
  induction l with
  | nil => intro n j a h; simp at h
  | cons x t ih =>
    intro n j a h
    cases j with
    | zero =>
      simp only [List.get?_cons_zero, Option.some.injEq] at h
      subst h
      simp [List.enumFrom]
    | succ j2 =>
      simp only [List.get?_cons_succ] at h
      have := ih (n + 1) j2 a h
      simp only [List.enumFrom, List.mem_cons]
      right
      have he : n + (j2 + 1) = (n + 1) + j2 := by omega
      rw [he]
      exact this

theorem mem_enum_of_get? {α : Type} {l : List α} {j : Nat} {a : α} (h : l.get? j = some a) :
    (j, a) ∈ l.enum := by
  have := mem_enumFrom_of_get? l 0 j a h
  simpa using this

theorem getSameDayShifts_eq_nil {sched : List SlotRec} {e : String} {z : Int} :
    getSameDayShifts sched e z = [] ↔
      ∀ s ∈ sched, s.aEmail = some e → s.day ≠ z := by
  unfold getSameDayShifts
  rw [List.filter_eq_nil_iff]
  constructor
  · intro h s hs he hd
    exact h s hs (by simp [he, hd])
  · intro h s hs hb
    simp only [Bool.and_eq_true, beq_iff_eq] at hb
    exact h s hs hb.1 hb.2

theorem sameDayExceptLen_zero {sched : List SlotRec} {i : Nat} {e : String} {z : Int} :
    sameDayExceptLen sched i e z = 0 ↔
      ∀ j s, j ≠ i → sched.get? j = some s → s.aEmail = some e → s.day ≠ z := by
  unfold sameDayExceptLen
  rw [List.length_eq_zero, List.filter_eq_nil_iff]
  constructor
  · intro h j s hj hget he hd
    exact h (j, s) (mem_enum_of_get? hget) (by simp [hj, he, hd])
  · intro h js hjs hb
    simp only [Bool.and_eq_true, bne_iff_ne, ne_eq, beq_iff_eq] at hb
    exact h js.1 js.2 hb.1.1 (get?_of_mem_enum hjs) hb.1.2 hb.2

theorem ownedSlotIdxs_spec {sched : List SlotRec} {e : String} {k : ShiftKey} {i : Nat}
    (h : i ∈ ownedSlotIdxs sched e k) :
    ∃ s, sched.get? i = some s ∧ s.aEmail = some e ∧ getShiftTypeKey s = k := by
  unfold ownedSlotIdxs at h
  rcases List.mem_map.mp h with ⟨js, hjs, rfl⟩
  have hmem := List.mem_filter.mp hjs
  have hget := get?_of_mem_enum hmem.1
  have hb := hmem.2
  simp only [Bool.and_eq_true, beq_iff_eq] at hb
  exact ⟨js.2, hget, hb.1, hb.2⟩

/-! ### Candidate-pool lemmas -/

theorem strictCands_free {ctx : FillCtx} {sched : List SlotRec} {load : LoadMap}
    {slot : SlotRec} {p : Person} (h : p ∈ strictCands ctx sched load slot) :
    getSameDayShifts sched p.email slot.day = [] := by
  have hb := (List.mem_filter.mp h).2
  by_cases h1 : (load p.email).get (getShiftTypeKey slot) ≥ (ctx.targets (getShiftTypeKey slot)).max
  · rw [if_pos h1] at hb
    exact absurd hb (by simp)
  · rw [if_neg h1] at hb
    by_cases h2 : (getSameDayShifts sched p.email slot.day).length > 0
    · rw [if_pos h2] at hb
      exact absurd hb (by simp)
    · exact List.length_eq_zero.mp (by omega)

theorem relaxedCands_free {ctx : FillCtx} {sched : List SlotRec} {slot : SlotRec} {p : Person}
    (h : p ∈ relaxedCands ctx sched slot) :
    getSameDayShifts sched p.email slot.day = [] := by
  have hb := (List.mem_filter.mp h).2
  simp only [beq_iff_eq] at hb
  exact List.length_eq_zero.mp hb

theorem pickBest_mem {ctx : FillCtx} {fair : List Person} {slot : SlotRec} {p : Person}
    (h : pickBest ctx fair slot = some p) : p ∈ fair := by
  unfold pickBest at h
  dsimp only at h
  cases hsl : sortByCmp rankedCmp (fair.enum.map fun ip =>
      ({ person := ip.2, prefCost := prefAdj ctx.prefs ip.2.email slot.day,
         rotatedIndex := ((ip.1 : Int) + (dateNum slot.day + slotNumOf slot).emod (fair.length : Int)).emod (fair.length : Int) } : Ranked)) with
  | nil => rw [hsl] at h; simp at h
  | cons r rs =>
    rw [hsl] at h
    simp only [List.head?_cons, Option.map_some'] at h
    have hr : r ∈ sortByCmp rankedCmp (fair.enum.map fun ip =>
        ({ person := ip.2, prefCost := prefAdj ctx.prefs ip.2.email slot.day,
           rotatedIndex := ((ip.1 : Int) + (dateNum slot.day + slotNumOf slot).emod (fair.length : Int)).emod (fair.length : Int) } : Ranked)) := by
      rw [hsl]
      exact List.mem_cons_self r rs
    rcases List.mem_map.mp (mem_sortByCmp.mp hr) with ⟨ip, hip, hre⟩
    have hmem : ip.2 ∈ fair := snd_mem_enum hip
    have hp : r.person = p := by injection h
    rw [← hp]
    rw [← hre]
    exact hmem

theorem exists_of_findSome? {α β : Type} {f : α → Option β} :
    ∀ {l : List α} {b : β}, l.findSome? f = some b → ∃ a ∈ l, f a = some b := by
  intro l
  induction l with
  | nil => intro b h; simp [List.findSome?] at h
  | cons x t ih =>
    intro b h
    rw [List.findSome?_cons] at h
    cases hf : f x with
    | some c =>
      rw [hf] at h
      have h2 : some c = some b := h
      exact ⟨x, List.mem_cons_self x t, by rw [hf, h2]⟩
    | none =>
      rw [hf] at h
      have h2 : List.findSome? f t = some b := h
      rcases ih h2 with ⟨a, ha, hfa⟩
      exact ⟨a, List.mem_cons_of_mem x ha, hfa⟩

/-! ### No-double-booking: preservation by every phase -/

/-- Appending a slot assigned to someone free that day preserves the
property. -/
theorem noDouble_append {sched : List SlotRec} (h : NoDoubleDay sched) (slot2 : SlotRec)
    (hfree : ∀ s ∈ sched, s.aEmail = slot2.aEmail → s.day ≠ slot2.day) :
    NoDoubleDay (sched ++ [slot2]) := by
  unfold NoDoubleDay
  rw [List.pairwise_append]
  refine ⟨h, List.pairwise_singleton _ _, ?_⟩
  intro a ha b hb
  simp only [List.mem_singleton] at hb
  subst hb
  intro _ heq
  exact hfree a ha heq

/-- Reassigning index `i` to someone with no other slot that day
preserves the property. -/
theorem noDouble_set {sched : List SlotRec} {i : Nat} (new : SlotRec)
    (h : NoDoubleDay sched)
    (hconf : ∀ j s, j ≠ i → sched.get? j = some s → s.aEmail = new.aEmail → s.day ≠ new.day) :
    NoDoubleDay (sched.set i new) := by
  unfold NoDoubleDay at h ⊢
  rw [List.pairwise_iff_getElem] at h ⊢
  intro a b ha hb hab
  have ha2 : a < sched.length := by simpa using ha
  have hb2 : b < sched.length := by simpa using hb
  by_cases hbi : b = i
  · have hai : a ≠ i := by omega
    have e1 : (sched.set i new)[a] = sched[a] := List.getElem_set_ne (by omega) ha
    subst hbi
    have e2 : (sched.set b new)[b] = new := List.getElem_set_self (by simpa using hb)
    rw [e1, e2]
    intro _ heq
    exact hconf a sched[a] hai (List.get?_eq_get ha2) heq
  · by_cases hai : a = i
    · subst hai
      have e1 : (sched.set a new)[a] = new := List.getElem_set_self (by simpa using ha)
      have e2 : (sched.set a new)[b] = sched[b] := List.getElem_set_ne (by omega) hb
      rw [e1, e2]
      intro _ heq hd
      exact hconf b sched[b] hbi (List.get?_eq_get hb2) heq.symm hd.symm
    · have e1 : (sched.set i new)[a] = sched[a] := List.getElem_set_ne (by omega) ha
      have e2 : (sched.set i new)[b] = sched[b] := List.getElem_set_ne (by omega) hb
      rw [e1, e2]
      exact h a b ha2 hb2 hab

theorem assignFromPool_noDouble (ctx : FillCtx) (st : FillSt) (slot : SlotRec)
    (cands : List Person) (warn : Bool) (h : NoDoubleDay st.sched)
    (hfree : ∀ p ∈ cands, getSameDayShifts st.sched p.email slot.day = []) :
    NoDoubleDay (assignFromPool ctx st slot cands warn).sched := by
  unfold assignFromPool
  dsimp only
  cases hp : pickBest ctx (cands.filter fun p =>
      (st.load p.email).get (getShiftTypeKey slot) ==
        listMinI (cands.map fun p => (st.load p.email).get (getShiftTypeKey slot))) slot with
  | none => exact h
  | some p =>
    have hpm : p ∈ cands := (List.mem_filter.mp (pickBest_mem hp)).1
    have hfr := hfree p hpm
    refine noDouble_append h _ ?_
    intro s hs heq
    exact getSameDayShifts_eq_nil.mp hfr s hs (by simpa using heq)

theorem fillStep_noDouble (ctx : FillCtx) (st : FillSt) (slot : SlotRec)
    (h : NoDoubleDay st.sched) : NoDoubleDay (fillStep ctx st slot).sched := by
  unfold fillStep
  cases he : st.err with
  | some e => exact h
  | none =>
    dsimp only
    by_cases hs : (strictCands ctx st.sched st.load slot).isEmpty
    · rw [if_pos hs]
      by_cases hr : (relaxedCands ctx st.sched slot).isEmpty
      · rw [if_pos hr]
        exact h
      · rw [if_neg hr]
        exact assignFromPool_noDouble ctx st slot _ true h
          (fun p hp => relaxedCands_free hp)
    · rw [if_neg hs]
      exact assignFromPool_noDouble ctx st slot _ false h
        (fun p hp => strictCands_free hp)

theorem foldl_fillStep_noDouble (ctx : FillCtx) (slots : List SlotRec) (st : FillSt)
    (h : NoDoubleDay st.sched) : NoDoubleDay (slots.foldl (fillStep ctx) st).sched := by
  induction slots generalizing st with
  | nil => exact h
  | cons s t ih => exact ih _ (fillStep_noDouble ctx st s h)

theorem runFill_noDouble (ctx : FillCtx) (slots : List SlotRec) :
    NoDoubleDay (runFill ctx slots).sched :=
  foldl_fillStep_noDouble ctx slots _ List.Pairwise.nil

theorem findSwap_free {ctx : FillCtx} {sched : List SlotRec} {load : LoadMap} {i : Nat}
    {slot : SlotRec} {cpEmail : String} {cc : Int} {q : Person}
    (h : findSwap ctx sched load i slot cpEmail cc = some q) :
    sameDayExceptLen sched i q.email slot.day = 0 := by
  unfold findSwap at h
  have hp := List.find?_some h
  simp only [Bool.and_eq_true, beq_iff_eq] at hp
  exact hp.1.2

theorem optSlotStep_noDouble (ctx : FillCtx) (st : List SlotRec × LoadMap × Bool) (i : Nat)
    (h : NoDoubleDay st.1) : NoDoubleDay (optSlotStep ctx st i).1 := by
  rcases st with ⟨sched, load, imp⟩
  unfold optSlotStep
  dsimp only at h ⊢
  split
  · exact h
  next slot hg =>
    split
    · exact h
    next cp ha =>
      split
      · exact h
      · split
        · exact h
        next q hf =>
          refine noDouble_set _ h ?_
          intro j s hj hgj heq
          exact sameDayExceptLen_zero.mp (findSwap_free hf) j s hj hgj heq

theorem optPass_noDouble (ctx : FillCtx) (st : List SlotRec × LoadMap)
    (h : NoDoubleDay st.1) : NoDoubleDay (optPass ctx st).1 := by
  unfold optPass
  have hgen : ∀ (idxs : List Nat) (s0 : List SlotRec × LoadMap × Bool), NoDoubleDay s0.1 →
      NoDoubleDay (idxs.foldl (optSlotStep ctx) s0).1 := by
    intro idxs
    induction idxs with
    | nil => intro s0 hs; exact hs
    | cons j t ih => intro s0 hs; exact ih _ (optSlotStep_noDouble ctx s0 j hs)
  exact hgen _ _ h

theorem optLoop_noDouble (ctx : FillCtx) (fuel : Nat) (st : List SlotRec × LoadMap)
    (h : NoDoubleDay st.1) : NoDoubleDay (optLoop ctx fuel st).1 := by
  induction fuel generalizing st with
  | zero => exact h
  | succ f ih =>
    unfold optLoop
    dsimp only
    by_cases himp : (optPass ctx st).2.2
    · rw [if_pos himp]
      exact ih _ (optPass_noDouble ctx st h)
    · rw [if_neg himp]
      exact optPass_noDouble ctx st h

theorem optimizeWithSwaps_noDouble (ctx : FillCtx) (st : List SlotRec × LoadMap)
    (h : NoDoubleDay st.1) : NoDoubleDay (optimizeWithSwaps ctx st).1 :=
  optLoop_noDouble ctx 100 st h

/-- The chosen recipient of a direct transfer is free on the slot's day
(apart from the transferred slot itself). -/
theorem pickRecipient_free {ctx : FillCtx} {recipients : List Person} {sched : List SlotRec}
    {i : Nat} {slot : SlotRec} {toP : Person}
    (h : pickRecipient ctx recipients sched i slot = some toP) :
    sameDayExceptLen sched i toP.email slot.day = 0 := by
  unfold pickRecipient at h
  dsimp only at h
  have hmem : toP ∈ recipients.filter fun p => sameDayExceptLen sched i p.email slot.day == 0 := by
    cases hfind : (sortByCmp (fun a b => recipientScore ctx.prefs a.email slot.day
        - recipientScore ctx.prefs b.email slot.day)
        (recipients.filter fun p => sameDayExceptLen sched i p.email slot.day == 0)).find?
        (fun p => !(notPrefB ctx.prefs p.email slot.day)) with
    | some p =>
      rw [hfind] at h
      have h2 : some p = some toP := h
      have hp : p = toP := by injection h2
      subst hp
      exact mem_sortByCmp.mp (List.mem_of_find?_eq_some hfind)
    | none =>
      rw [hfind] at h
      have h2 : (sortByCmp (fun a b => recipientScore ctx.prefs a.email slot.day
          - recipientScore ctx.prefs b.email slot.day)
          (recipients.filter fun p => sameDayExceptLen sched i p.email slot.day == 0)).head?
          = some toP := h
      cases hsl : sortByCmp (fun a b => recipientScore ctx.prefs a.email slot.day
          - recipientScore ctx.prefs b.email slot.day)
          (recipients.filter fun p => sameDayExceptLen sched i p.email slot.day == 0) with
      | nil => rw [hsl] at h2; exact absurd h2 (by simp)
      | cons x xs =>
        rw [hsl] at h2
        simp only [List.head?_cons, Option.some.injEq] at h2
        subst h2
        exact mem_sortByCmp.mp (by rw [hsl]; exact List.mem_cons_self x xs)
  have hb := (List.mem_filter.mp hmem).2
  simpa using hb

theorem strat1_noDouble {ctx : FillCtx} {key : ShiftKey} {sched : List SlotRec}
    {load : LoadMap} {donors recipients : List Person} {r : List SlotRec × LoadMap}
    (h : strat1 ctx key sched load donors recipients = some r)
    (hND : NoDoubleDay sched) : NoDoubleDay r.1 := by
  unfold strat1 at h
  rcases exists_of_findSome? h with ⟨fromP, _, h2⟩
  rcases exists_of_findSome? h2 with ⟨i, _, h3⟩
  cases hg : sched.get? i with
  | none => rw [hg] at h3; exact absurd h3 (by simp)
  | some slot =>
    rw [hg] at h3
    simp only [Option.some_bind] at h3
    cases hpick : pickRecipient ctx recipients sched i slot with
    | none => rw [hpick] at h3; exact absurd h3 (by simp)
    | some toP =>
      rw [hpick] at h3
      simp only [Option.map_some', Option.some.injEq] at h3
      subst h3
      unfold applyTransfer
      dsimp only
      refine noDouble_set _ hND ?_
      intro j s hj hgj heq
      exact sameDayExceptLen_zero.mp (pickRecipient_free hpick) j s hj hgj heq

theorem ownedSlotIdxsOtherDay_spec {sched : List SlotRec} {email : String} {key : ShiftKey}
    {z : Int} {i : Nat} (h : i ∈ ownedSlotIdxsOtherDay sched email key z) :
    ∃ s, sched.get? i = some s ∧ s.aEmail = some email ∧ getShiftTypeKey s = key ∧
      s.day ≠ z := by
  unfold ownedSlotIdxsOtherDay at h
  rcases List.mem_map.mp h with ⟨js, hjs, rfl⟩
  have hmem := List.mem_filter.mp hjs
  have hget := get?_of_mem_enum hmem.1
  have hb := hmem.2
  simp only [Bool.and_eq_true, beq_iff_eq, bne_iff_ne, ne_eq] at hb
  exact ⟨js.2, hget, hb.1.1, hb.1.2, hb.2⟩

theorem strat2_noDouble {ctx : FillCtx} {key : ShiftKey} {sched : List SlotRec}
    {load : LoadMap} {donors recipients : List Person} {minC maxC : Int}
    {r : List SlotRec × LoadMap}
    (h : strat2 ctx key sched load donors recipients minC maxC = some r)
    (hND : NoDoubleDay sched) : NoDoubleDay r.1 := by
  unfold strat2 at h
  rcases exists_of_findSome? h with ⟨donor, _, h2⟩
  rcases exists_of_findSome? h2 with ⟨di, _, h3⟩
  cases hgd : sched.get? di with
  | none => rw [hgd] at h3; exact absurd h3 (by simp)
  | some donorSlot =>
    rw [hgd] at h3
    simp only [Option.some_bind] at h3
    rcases exists_of_findSome? h3 with ⟨inter, hinterMem, h4⟩
    by_cases hconf : sameDayExceptLen sched di inter.email donorSlot.day != 0
    · rw [if_pos hconf] at h4
      exact absurd h4 (by simp)
    · rw [if_neg hconf] at h4
      have hIconf : sameDayExceptLen sched di inter.email donorSlot.day = 0 := by
        simpa using hconf
      rcases exists_of_findSome? h4 with ⟨ii, hii, h5⟩
      cases hgi : sched.get? ii with
      | none => rw [hgi] at h5; exact absurd h5 (by simp)
      | some intSlot =>
        rw [hgi] at h5
        simp only [Option.some_bind] at h5
        cases hfindr : recipients.find? (fun p =>
            sameDayExceptLen sched ii p.email intSlot.day == 0) with
        | none => rw [hfindr] at h5; exact absurd h5 (by simp)
        | some rec =>
          rw [hfindr] at h5
          simp only [Option.map_some', Option.some.injEq] at h5
          subst h5
          obtain ⟨intS2, hgi2, hIem, _, hIday⟩ := ownedSlotIdxsOtherDay_spec hii
          have hintSlot : intS2 = intSlot := by
            rw [hgi] at hgi2
            injection hgi2 with hh
            exact hh.symm
          rw [hintSlot] at hIem hIday
          have hrecFree : sameDayExceptLen sched ii rec.email intSlot.day = 0 := by
            have := List.find?_some hfindr
            simpa using this
          have hrecmem : rec ∈ recipients := List.mem_of_find?_eq_some hfindr
          have hinterB := (List.mem_filter.mp hinterMem).2
          simp only [Bool.and_eq_true, Bool.not_eq_true', bne_iff_ne, ne_eq,
            decide_eq_true_eq] at hinterB
          have hrecne : rec.email ≠ inter.email := by
            have hany := hinterB.1.1.2
            rw [List.any_eq_false] at hany
            have := hany rec hrecmem
            simpa using this
          have hdibound : di < sched.length := by
            rcases List.get?_eq_some.mp hgd with ⟨hlt, _⟩
            exact hlt
          have hnd1 : NoDoubleDay (sched.set di { donorSlot with assigned := some inter }) :=
            noDouble_set _ hND (fun j s hj hgj heq =>
              sameDayExceptLen_zero.mp hIconf j s hj hgj heq)
          refine noDouble_set _ hnd1 ?_
          intro j s hj hgj heq
          by_cases hjd : j = di
          · subst hjd
            have hsa : (sched.set j { donorSlot with assigned := some inter }).get? j
                = some { donorSlot with assigned := some inter } :=
              List.get?_set_eq_of_lt _ hdibound
            rw [hsa] at hgj
            have hseq : s = { donorSlot with assigned := some inter } := by
              injection hgj with hh
              exact hh.symm
            rw [hseq] at heq
            have hemails : inter.email = rec.email := by
              simpa [SlotRec.aEmail] using heq
            exact absurd hemails fun hh => hrecne hh.symm
          · have hgj2 : sched.get? j = some s := by
              rw [List.get?_set_ne _ _ fun hh => hjd hh.symm] at hgj
              exact hgj
            exact sameDayExceptLen_zero.mp hrecFree j s hj hgj2 heq

theorem balanceMove_noDouble {ctx : FillCtx} {key : ShiftKey} {sched : List SlotRec}
    {load : LoadMap} {r : List SlotRec × LoadMap}
    (h : balanceMove ctx key sched load = some r) (hND : NoDoubleDay sched) :
    NoDoubleDay r.1 := by
  unfold balanceMove at h
  dsimp only at h
  split at h
  next st hs1 =>
    have h2 : st = r := by injection h
    subst h2
    exact strat1_noDouble hs1 hND
  next => exact strat2_noDouble h hND

theorem balanceCatLoop_noDouble (ctx : FillCtx) (key : ShiftKey) :
    ∀ (fuel : Nat) (st : List SlotRec × LoadMap),
      NoDoubleDay st.1 → NoDoubleDay (balanceCatLoop ctx key fuel st).1.1 := by
  intro fuel
  induction fuel with
  | zero => intro st h; exact h
  | succ f ih =>
    intro st h
    unfold balanceCatLoop
    by_cases hsp : loadSpread ctx st.2 key ≤ 1
    · rw [if_pos hsp]
      exact h
    · rw [if_neg hsp]
      split
    
      next st2 hm => exact ih st2 (balanceMove_noDouble hm h)
      next => exact h

theorem balanceUpTo_noDouble (ctx : FillCtx) (keys : List ShiftKey)
    (st : List SlotRec × LoadMap) (h : NoDoubleDay st.1) :
    NoDoubleDay (balanceUpTo ctx keys st).1 := by
  induction keys generalizing st with
  | nil => exact h
  | cons k t ih => exact ih _ (balanceCatLoop_noDouble ctx k 500 st h)

theorem balanceShifts_noDouble (ctx : FillCtx) (st : List SlotRec × LoadMap)
    (h : NoDoubleDay st.1) : NoDoubleDay (balanceShifts ctx st).1 :=
  balanceUpTo_noDouble ctx shiftKeyOrder st h

theorem generateSchedule_noDouble (s s2 : Scheduler) (u : Except SchedErr Unit)
    (h : generateSchedule s = (s2, u)) (hok : u = Except.ok ()) :
    NoDoubleDay s2.schedule := by
  subst hok
  unfold generateSchedule at h
  dsimp only at h
  by_cases hcap : s.people.length < s.primaryCount + s.secondaryCount
  · rw [if_pos hcap] at h
    injection h with h1 h2
    exact absurd h2 (by simp)
  · rw [if_neg hcap] at h
    split at h
    · injection h with h1 h2
      exact absurd h2 (by simp)
    · injection h with h1 h2
      exact absurd h2 (by simp)
    · split at h
      · injection h with h1 h2
        exact absurd h2 (by simp)
      · injection h with h1 h2
        have hnd := runFill_noDouble (mkCtx s) (sortByCmp slotCmp (generateSlots s))
        have hnd2 := optimizeWithSwaps_noDouble (mkCtx s)
          ((runFill (mkCtx s) (sortByCmp slotCmp (generateSlots s))).sched,
           (runFill (mkCtx s) (sortByCmp slotCmp (generateSlots s))).load) hnd
        have hnd3 := balanceShifts_noDouble (mkCtx s) _ hnd2
        rw [← h1]
        exact hnd3

/-- C2: no double-booking, at every point of the pipeline.  A fill step
preserves the property (so it holds throughout and after the greedy
fill, which starts from the empty schedule), each optimizer micro-step
and therefore the whole swap optimizer preserves it, each balancer
transfer or triangle rotation and therefore the whole balancer preserves
it, and the schedule stored by a normally-returning `generateSchedule`
satisfies it. -/
theorem c2_no_double_booking :
    (∀ (ctx : FillCtx) (st : FillSt) (slot : SlotRec),
      NoDoubleDay st.sched → NoDoubleDay (fillStep ctx st slot).sched) ∧
    (∀ (ctx : FillCtx) (slots : List SlotRec), NoDoubleDay (runFill ctx slots).sched) ∧
    (∀ (ctx : FillCtx) (st : List SlotRec × LoadMap × Bool) (i : Nat),
      NoDoubleDay st.1 → NoDoubleDay (optSlotStep ctx st i).1) ∧
    (∀ (ctx : FillCtx) (st : List SlotRec × LoadMap),
      NoDoubleDay st.1 → NoDoubleDay (optimizeWithSwaps ctx st).1) ∧
    (∀ (ctx : FillCtx) (key : ShiftKey) (sched : List SlotRec) (load : LoadMap)
      (r : List SlotRec × LoadMap), balanceMove ctx key sched load = some r →
      NoDoubleDay sched → NoDoubleDay r.1) ∧
    (∀ (ctx : FillCtx) (st : List SlotRec × LoadMap),
      NoDoubleDay st.1 → NoDoubleDay (balanceShifts ctx st).1) ∧
    (∀ (s s2 : Scheduler) (u : Except SchedErr Unit),
      generateSchedule s = (s2, u) → u = Except.ok () → NoDoubleDay s2.schedule) :=
  ⟨fillStep_noDouble, runFill_noDouble, optSlotStep_noDouble, optimizeWithSwaps_noDouble,
   fun _ _ _ _ _ h hnd => balanceMove_noDouble h hnd, balanceShifts_noDouble,
   generateSchedule_noDouble⟩

/-- C2 witness: the theorem applied to a concrete completed run and to a
concrete fill step. -/
theorem c2_no_double_booking_witness :
    NoDoubleDay ((generateSchedule tinySched).1).schedule ∧
    NoDoubleDay (fillStep c3Ctx c3St cexSlot).sched :=
  ⟨c2_no_double_booking.2.2.2.2.2.2 tinySched (generateSchedule tinySched).1
    (generateSchedule tinySched).2 rfl (by rfl),
   c2_no_double_booking.1 c3Ctx c3St cexSlot List.Pairwise.nil⟩

/-! ### Load-consistency: preservation by every phase -/

theorem get_addK_addHours (r : LoadRec) (k : ShiftKey) (v hv : Int) (k2 : ShiftKey) :
    ((r.addK k v).addHours hv).get k2 = r.get k2 + (if k2 = k then v else 0) := by
  cases k <;> cases k2 <;>
    simp [LoadRec.addK, LoadRec.addHours, LoadRec.get]

theorem total_addK_addHours (r : LoadRec) (k : ShiftKey) (v hv : Int) :
    ((r.addK k v).addHours hv).total_hours = r.total_hours + hv := by
  cases k <;> rfl

theorem loadOk_nil : LoadOk [] LoadMap.zero := by
  intro e k
  cases k <;> exact ⟨rfl, rfl⟩

/-- Appending a freshly assigned slot and incrementing the assignee's
counters preserves consistency. -/
theorem loadOk_append_assign {sched : List SlotRec} {load : LoadMap}
    (h : LoadOk sched load) (slot : SlotRec) (p : Person) (warn : Bool) :
    LoadOk (sched ++ [{ slot with assigned := some p, warning := warn }])
      (updLoad load p.email fun r => (r.addK (getShiftTypeKey slot) 1).addHours slot.duration) := by
  intro e k
  obtain ⟨hc, hh⟩ := h e k
  constructor
  · rw [slotCountI_append, slotCountI_single, updLoad_apply]
    simp only [show ({ slot with assigned := some p, warning := warn } : SlotRec).aEmail
        = some p.email from rfl, key_update, Option.some.injEq]
    by_cases he : e = p.email
    · subst he
      rw [if_pos rfl, get_addK_addHours]
      by_cases hk : k = getShiftTypeKey slot
      · rw [if_pos hk, if_pos ⟨rfl, hk.symm⟩]
        omega
      · rw [if_neg hk, if_neg fun hcond => hk hcond.2.symm]
        omega
    · rw [if_neg he, if_neg fun hcond => he hcond.1.symm]
      omega
  · rw [slotHoursI_append, slotHoursI_single, updLoad_apply]
    simp only [show ({ slot with assigned := some p, warning := warn } : SlotRec).aEmail
        = some p.email from rfl,
      show ({ slot with assigned := some p, warning := warn } : SlotRec).duration
        = slot.duration from rfl, Option.some.injEq]
    by_cases he : e = p.email
    · subst he
      rw [if_pos rfl, total_addK_addHours, if_pos rfl]
      omega
    · rw [if_neg he, if_neg fun hcond => he hcond.symm]
      omega

/-- Reassigning a slot from its holder to another person, with the two
matching load updates, preserves consistency. -/
theorem loadOk_transfer {sched : List SlotRec} {load : LoadMap} {i : Nat} {old : SlotRec}
    {fromE : String} (toP : Person) {k : ShiftKey}
    (h : LoadOk sched load) (hg : sched.get? i = some old)
    (hold : old.aEmail = some fromE) (hk : getShiftTypeKey old = k) :
    LoadOk (sched.set i { old with assigned := some toP })
      (updLoad (updLoad load fromE fun r => (r.addK k (-1)).addHours (-old.duration))
        toP.email fun r => (r.addK k 1).addHours old.duration) := by
  intro e k2
  obtain ⟨hc, hh⟩ := h e k2
  constructor
  · rw [slotCountI_set _ hg, updLoad_apply, updLoad_apply]
    simp only [show ({ old with assigned := some toP } : SlotRec).aEmail
        = some toP.email from rfl, key_update2, hold, hk, Option.some.injEq]
    by_cases he1 : e = toP.email
    · by_cases he2 : e = fromE
      · rw [if_pos he1, if_pos he2, get_addK_addHours, get_addK_addHours]
        by_cases hk2 : k2 = k
        · rw [if_pos hk2, if_pos hk2, if_pos ⟨he2.symm, hk2.symm⟩, if_pos ⟨he1.symm, hk2.symm⟩]
          omega
        · rw [if_neg hk2, if_neg hk2, if_neg fun hcond => hk2 hcond.2.symm,
            if_neg fun hcond => hk2 hcond.2.symm]
          omega
      · rw [if_pos he1, if_neg he2, get_addK_addHours]
        by_cases hk2 : k2 = k
        · rw [if_pos hk2, if_neg fun hcond => he2 hcond.1.symm,
            if_pos ⟨he1.symm, hk2.symm⟩]
          omega
        · rw [if_neg hk2, if_neg fun hcond => hk2 hcond.2.symm,
            if_neg fun hcond => hk2 hcond.2.symm]
          omega
    · by_cases he2 : e = fromE
      · rw [if_neg he1, if_pos he2, get_addK_addHours]
        by_cases hk2 : k2 = k
        · rw [if_pos hk2, if_pos ⟨he2.symm, hk2.symm⟩, if_neg fun hcond => he1 hcond.1.symm]
          omega
        · rw [if_neg hk2, if_neg fun hcond => hk2 hcond.2.symm,
            if_neg fun hcond => hk2 hcond.2.symm]
          omega
      · rw [if_neg he1, if_neg he2, if_neg fun hcond => he2 hcond.1.symm,
          if_neg fun hcond => he1 hcond.1.symm]
        omega
  · rw [slotHoursI_set _ hg, updLoad_apply, updLoad_apply]
    simp only [show ({ old with assigned := some toP } : SlotRec).aEmail
        = some toP.email from rfl,
      show ({ old with assigned := some toP } : SlotRec).duration = old.duration from rfl,
      hold, Option.some.injEq]
    by_cases he1 : e = toP.email
    · by_cases he2 : e = fromE
      · rw [if_pos he1, if_pos he2, total_addK_addHours, total_addK_addHours,
          if_pos he2.symm, if_pos he1.symm]
        omega
      · rw [if_pos he1, if_neg he2, total_addK_addHours,
          if_neg fun hcond => he2 hcond.symm, if_pos he1.symm]
        omega
    · by_cases he2 : e = fromE
      · rw [if_neg he1, if_pos he2, total_addK_addHours, if_pos he2.symm,
          if_neg fun hcond => he1 hcond.symm]
        omega
      · rw [if_neg he1, if_neg he2, if_neg fun hcond => he2 hcond.symm,
          if_neg fun hcond => he1 hcond.symm]
        omega

theorem assignFromPool_loadOk (ctx : FillCtx) (st : FillSt) (slot : SlotRec)
    (cands : List Person) (warn : Bool) (h : LoadOk st.sched st.load) :
    LoadOk (assignFromPool ctx st slot cands warn).sched
      (assignFromPool ctx st slot cands warn).load := by
  unfold assignFromPool
  dsimp only
  cases hp : pickBest ctx (cands.filter fun p =>
      (st.load p.email).get (getShiftTypeKey slot) ==
        listMinI (cands.map fun p => (st.load p.email).get (getShiftTypeKey slot))) slot with
  | none => exact h
  | some p => exact loadOk_append_assign h slot p warn

theorem fillStep_loadOk (ctx : FillCtx) (st : FillSt) (slot : SlotRec)
    (h : LoadOk st.sched st.load) :
    LoadOk (fillStep ctx st slot).sched (fillStep ctx st slot).load := by
  unfold fillStep
  cases he : st.err with
  | some e => exact h
  | none =>
    dsimp only
    by_cases hs : (strictCands ctx st.sched st.load slot).isEmpty
    · rw [if_pos hs]
      by_cases hr : (relaxedCands ctx st.sched slot).isEmpty
      · rw [if_pos hr]
        exact h
      · rw [if_neg hr]
        exact assignFromPool_loadOk ctx st slot _ true h
    · rw [if_neg hs]
      exact assignFromPool_loadOk ctx st slot _ false h

theorem foldl_fillStep_loadOk (ctx : FillCtx) (slots : List SlotRec) (st : FillSt)
    (h : LoadOk st.sched st.load) :
    LoadOk (slots.foldl (fillStep ctx) st).sched (slots.foldl (fillStep ctx) st).load := by
  induction slots generalizing st with
  | nil => exact h
  | cons s t ih => exact ih _ (fillStep_loadOk ctx st s h)

theorem runFill_loadOk (ctx : FillCtx) (slots : List SlotRec) :
    LoadOk (runFill ctx slots).sched (runFill ctx slots).load :=
  foldl_fillStep_loadOk ctx slots _ loadOk_nil

theorem optSlotStep_loadOk (ctx : FillCtx) (st : List SlotRec × LoadMap × Bool) (i : Nat)
    (h : LoadOk st.1 st.2.1) : LoadOk (optSlotStep ctx st i).1 (optSlotStep ctx st i).2.1 := by
  rcases st with ⟨sched, load, imp⟩
  unfold optSlotStep
  dsimp only at h ⊢
  split
  · exact h
  next slot hg =>
    split
    · exact h
    next cp ha =>
      split
      · exact h
      · split
        · exact h
        next q hf =>
          exact loadOk_transfer q h hg (by simp [SlotRec.aEmail, ha]) rfl

theorem optPass_loadOk (ctx : FillCtx) (st : List SlotRec × LoadMap)
    (h : LoadOk st.1 st.2) : LoadOk (optPass ctx st).1 (optPass ctx st).2.1 := by
  unfold optPass
  have hgen : ∀ (idxs : List Nat) (s0 : List SlotRec × LoadMap × Bool), LoadOk s0.1 s0.2.1 →
      LoadOk (idxs.foldl (optSlotStep ctx) s0).1 (idxs.foldl (optSlotStep ctx) s0).2.1 := by
    intro idxs
    induction idxs with
    | nil => intro s0 hs; exact hs
    | cons j t ih => intro s0 hs; exact ih _ (optSlotStep_loadOk ctx s0 j hs)
  exact hgen _ _ h

theorem optLoop_loadOk (ctx : FillCtx) (fuel : Nat) (st : List SlotRec × LoadMap)
    (h : LoadOk st.1 st.2) : LoadOk (optLoop ctx fuel st).1 (optLoop ctx fuel st).2 := by
  induction fuel generalizing st with
  | zero => exact h
  | succ f ih =>
    unfold optLoop
    dsimp only
    by_cases himp : (optPass ctx st).2.2
    · rw [if_pos himp]
      exact ih _ (optPass_loadOk ctx st h)
    · rw [if_neg himp]
      exact optPass_loadOk ctx st h

theorem optimizeWithSwaps_loadOk (ctx : FillCtx) (st : List SlotRec × LoadMap)
    (h : LoadOk st.1 st.2) : LoadOk (optimizeWithSwaps ctx st).1 (optimizeWithSwaps ctx st).2 :=
  optLoop_loadOk ctx 100 st h

theorem strat1_loadOk {ctx : FillCtx} {key : ShiftKey} {sched : List SlotRec}
    {load : LoadMap} {donors recipients : List Person} {r : List SlotRec × LoadMap}
    (h : strat1 ctx key sched load donors recipients = some r)
    (hLO : LoadOk sched load) : LoadOk r.1 r.2 := by
  unfold strat1 at h
  rcases exists_of_findSome? h with ⟨fromP, _, h2⟩
  rcases exists_of_findSome? h2 with ⟨i, hiMem, h3⟩
  cases hg : sched.get? i with
  | none => rw [hg] at h3; exact absurd h3 (by simp)
  | some slot =>
    rw [hg] at h3
    simp only [Option.some_bind] at h3
    cases hpick : pickRecipient ctx recipients sched i slot with
    | none => rw [hpick] at h3; exact absurd h3 (by simp)
    | some toP =>
      rw [hpick] at h3
      simp only [Option.map_some', Option.some.injEq] at h3
      subst h3
      unfold applyTransfer
      dsimp only
      obtain ⟨s2, hg2, hem, hkey⟩ := ownedSlotIdxs_spec hiMem
      have hs2 : s2 = slot := by
        rw [hg] at hg2
        injection hg2 with hh
        exact hh.symm
      rw [hs2] at hem hkey
      exact loadOk_transfer toP hLO hg hem hkey

theorem strat2_loadOk {ctx : FillCtx} {key : ShiftKey} {sched : List SlotRec}
    {load : LoadMap} {donors recipients : List Person} {minC maxC : Int}
    {r : List SlotRec × LoadMap}
    (h : strat2 ctx key sched load donors recipients minC maxC = some r)
    (hLO : LoadOk sched load) : LoadOk r.1 r.2 := by
  unfold strat2 at h
  rcases exists_of_findSome? h with ⟨donor, _, h2⟩
  rcases exists_of_findSome? h2 with ⟨di, hdiMem, h3⟩
  cases hgd : sched.get? di with
  | none => rw [hgd] at h3; exact absurd h3 (by simp)
  | some donorSlot =>
    rw [hgd] at h3
    simp only [Option.some_bind] at h3
    rcases exists_of_findSome? h3 with ⟨inter, hinterMem, h4⟩
    by_cases hconf : sameDayExceptLen sched di inter.email donorSlot.day != 0
    · rw [if_pos hconf] at h4
      exact absurd h4 (by simp)
    · rw [if_neg hconf] at h4
      rcases exists_of_findSome? h4 with ⟨ii, hii, h5⟩
      cases hgi : sched.get? ii with
      | none => rw [hgi] at h5; exact absurd h5 (by simp)
      | some intSlot =>
        rw [hgi] at h5
        simp only [Option.some_bind] at h5
        cases hfindr : recipients.find? (fun p =>
            sameDayExceptLen sched ii p.email intSlot.day == 0) with
        | none => rw [hfindr] at h5; exact absurd h5 (by simp)
        | some rec =>
          rw [hfindr] at h5
          simp only [Option.map_some', Option.some.injEq] at h5
          subst h5
          obtain ⟨dS2, hgd2, hDem, hDkey⟩ := ownedSlotIdxs_spec hdiMem
          have hds2 : dS2 = donorSlot := by
            rw [hgd] at hgd2
            injection hgd2 with hh
            exact hh.symm
          rw [hds2] at hDem hDkey
          obtain ⟨intS2, hgi2, hIem, hIkey, hIday⟩ := ownedSlotIdxsOtherDay_spec hii
          have hIs2 : intS2 = intSlot := by
            rw [hgi] at hgi2
            injection hgi2 with hh
            exact hh.symm
          rw [hIs2] at hIem hIkey hIday
          have hdine : di ≠ ii := by
            intro hde
            rw [hde, hgi] at hgd
            injection hgd with hh
            exact hIday (by rw [hh])
          have h1 := loadOk_transfer inter hLO hgd hDem hDkey
          have hgi1 : (sched.set di { donorSlot with assigned := some inter }).get? ii
              = some intSlot := by
            rw [List.get?_set_ne _ _ hdine]
            exact hgi
          exact loadOk_transfer rec h1 hgi1 hIem hIkey

theorem balanceMove_loadOk {ctx : FillCtx} {key : ShiftKey} {sched : List SlotRec}
    {load : LoadMap} {r : List SlotRec × LoadMap}
    (h : balanceMove ctx key sched load = some r) (hLO : LoadOk sched load) :
    LoadOk r.1 r.2 := by
  unfold balanceMove at h
  dsimp only at h
  split at h
  next st hs1 =>
    have h2 : st = r := by injection h
    subst h2
    exact strat1_loadOk hs1 hLO
  next => exact strat2_loadOk h hLO

theorem balanceCatLoop_loadOk (ctx : FillCtx) (key : ShiftKey) :
    ∀ (fuel : Nat) (st : List SlotRec × LoadMap),
      LoadOk st.1 st.2 → LoadOk (balanceCatLoop ctx key fuel st).1.1
        (balanceCatLoop ctx key fuel st).1.2 := by
  intro fuel
  induction fuel with
  | zero => intro st h; exact h
  | succ f ih =>
    intro st h
    unfold balanceCatLoop
    by_cases hsp : loadSpread ctx st.2 key ≤ 1
    · rw [if_pos hsp]
      exact h
    · rw [if_neg hsp]
      split
      next st2 hm => exact ih st2 (balanceMove_loadOk hm h)
      next => exact h

theorem balanceUpTo_loadOk (ctx : FillCtx) (keys : List ShiftKey)
    (st : List SlotRec × LoadMap) (h : LoadOk st.1 st.2) :
    LoadOk (balanceUpTo ctx keys st).1 (balanceUpTo ctx keys st).2 := by
  induction keys generalizing st with
  | nil => exact h
  | cons k t ih => exact ih _ (balanceCatLoop_loadOk ctx k 500 st h)

theorem balanceShifts_loadOk (ctx : FillCtx) (st : List SlotRec × LoadMap)
    (h : LoadOk st.1 st.2) : LoadOk (balanceShifts ctx st).1 (balanceShifts ctx st).2 :=
  balanceUpTo_loadOk ctx shiftKeyOrder st h

/-- The whole pipeline of a run, from the sorted slots through the fill,
the optimizer and the balancer, ends with a consistent load map. -/
theorem pipeline_loadOk (s : Scheduler) :
    LoadOk
      (balanceShifts (mkCtx s) (optimizeWithSwaps (mkCtx s)
        ((runFill (mkCtx s) (sortByCmp slotCmp (generateSlots s))).sched,
         (runFill (mkCtx s) (sortByCmp slotCmp (generateSlots s))).load))).1
      (balanceShifts (mkCtx s) (optimizeWithSwaps (mkCtx s)
        ((runFill (mkCtx s) (sortByCmp slotCmp (generateSlots s))).sched,
         (runFill (mkCtx s) (sortByCmp slotCmp (generateSlots s))).load))).2 :=
  balanceShifts_loadOk _ _ (optimizeWithSwaps_loadOk _ _
    (runFill_loadOk (mkCtx s) (sortByCmp slotCmp (generateSlots s))))

/-- C10: load-map consistency throughout `generateSchedule`.  Starting
from the empty schedule and the zeroed load map (which agree), every
fill step preserves the agreement (so it holds after the initial fill),
every optimizer micro-step (hence the whole swap optimizer) preserves
it, every balancer move — a direct transfer or a triangle rotation —
(hence the whole balancer) preserves it, and it holds at the end of the
whole pipeline of any run. -/
theorem c10_load_consistency :
    LoadOk [] LoadMap.zero ∧
    (∀ (ctx : FillCtx) (st : FillSt) (slot : SlotRec),
      LoadOk st.sched st.load → LoadOk (fillStep ctx st slot).sched (fillStep ctx st slot).load) ∧
    (∀ (ctx : FillCtx) (slots : List SlotRec),
      LoadOk (runFill ctx slots).sched (runFill ctx slots).load) ∧
    (∀ (ctx : FillCtx) (st : List SlotRec × LoadMap × Bool) (i : Nat),
      LoadOk st.1 st.2.1 → LoadOk (optSlotStep ctx st i).1 (optSlotStep ctx st i).2.1) ∧
    (∀ (ctx : FillCtx) (st : List SlotRec × LoadMap),
      LoadOk st.1 st.2 → LoadOk (optimizeWithSwaps ctx st).1 (optimizeWithSwaps ctx st).2) ∧
    (∀ (ctx : FillCtx) (key : ShiftKey) (sched : List SlotRec) (load : LoadMap)
      (r : List SlotRec × LoadMap), balanceMove ctx key sched load = some r →
      LoadOk sched load → LoadOk r.1 r.2) ∧
    (∀ (ctx : FillCtx) (st : List SlotRec × LoadMap),
      LoadOk st.1 st.2 → LoadOk (balanceShifts ctx st).1 (balanceShifts ctx st).2) ∧
    (∀ s : Scheduler,
      LoadOk
        (balanceShifts (mkCtx s) (optimizeWithSwaps (mkCtx s)
          ((runFill (mkCtx s) (sortByCmp slotCmp (generateSlots s))).sched,
           (runFill (mkCtx s) (sortByCmp slotCmp (generateSlots s))).load))).1
        (balanceShifts (mkCtx s) (optimizeWithSwaps (mkCtx s)
          ((runFill (mkCtx s) (sortByCmp slotCmp (generateSlots s))).sched,
           (runFill (mkCtx s) (sortByCmp slotCmp (generateSlots s))).load))).2) :=
  ⟨loadOk_nil, fillStep_loadOk, runFill_loadOk, optSlotStep_loadOk, optimizeWithSwaps_loadOk,
   fun _ _ _ _ _ h hLO => balanceMove_loadOk h hLO, balanceShifts_loadOk, pipeline_loadOk⟩

/-- C10 witness: the theorem applied to a concrete fill step (starting
from the empty state, whose consistency is the theorem's own first
conjunct) and to a concrete whole run. -/
theorem c10_load_consistency_witness :
    LoadOk (fillStep c3Ctx c3St cexSlot).sched (fillStep c3Ctx c3St cexSlot).load ∧
    LoadOk
      (balanceShifts (mkCtx tinySched) (optimizeWithSwaps (mkCtx tinySched)
        ((runFill (mkCtx tinySched) (sortByCmp slotCmp (generateSlots tinySched))).sched,
         (runFill (mkCtx tinySched) (sortByCmp slotCmp (generateSlots tinySched))).load))).1
      (balanceShifts (mkCtx tinySched) (optimizeWithSwaps (mkCtx tinySched)
        ((runFill (mkCtx tinySched) (sortByCmp slotCmp (generateSlots tinySched))).sched,
         (runFill (mkCtx tinySched) (sortByCmp slotCmp (generateSlots tinySched))).load))).2 :=
  ⟨c10_load_consistency.2.1 c3Ctx c3St cexSlot c10_load_consistency.1,
   c10_load_consistency.2.2.2.2.2.2.2 tinySched⟩

set_option maxRecDepth 100000 in
/-- C1 counterexample: a six-person roster over 2025-01-09..13 with
three primary and two secondary slots per day whose run returns
normally, yet the weekday-secondary category (six slots in total) ends
with per-person counts [1, 1, 0, 2, 1, 1]: max − min = 2 > 1. -/
theorem c1_counterexample :
    (generateSchedule c1Sched).2 = Except.ok () ∧
    schedCatTotal (generateSchedule c1Sched).1.schedule ShiftKey.weekday_secondary = 6 ∧
    schedSpread c1Sched.people (generateSchedule c1Sched).1.schedule
      ShiftKey.weekday_secondary = 2 := by
  refine ⟨rfl, rfl, rfl⟩

/-! ### What the balancer actually guarantees (amended C1) -/

theorem get_updLoad_addK_other {k key2 : ShiftKey} (hk : k ≠ key2) (load : LoadMap)
    (a : String) (v hv : Int) (e : String) :
    ((updLoad load a fun r => (r.addK key2 v).addHours hv) e).get k = (load e).get k := by
  rw [updLoad_apply]
  by_cases he : e = a
  · rw [if_pos he, get_addK_addHours, if_neg hk]
    omega
  · rw [if_neg he]

theorem strat1_get_other {ctx : FillCtx} {key : ShiftKey} {sched : List SlotRec}
    {load : LoadMap} {donors recipients : List Person} {r : List SlotRec × LoadMap}
    (k : ShiftKey) (hk : k ≠ key)
    (h : strat1 ctx key sched load donors recipients = some r) (e : String) :
    (r.2 e).get k = (load e).get k := by
  unfold strat1 at h
  rcases exists_of_findSome? h with ⟨fromP, _, h2⟩
  rcases exists_of_findSome? h2 with ⟨i, _, h3⟩
  cases hg : sched.get? i with
  | none => rw [hg] at h3; exact absurd h3 (by simp)
  | some slot =>
    rw [hg] at h3
    simp only [Option.some_bind] at h3
    cases hpick : pickRecipient ctx recipients sched i slot with
    | none => rw [hpick] at h3; exact absurd h3 (by simp)
    | some toP =>
      rw [hpick] at h3
      simp only [Option.map_some', Option.some.injEq] at h3
      subst h3
      unfold applyTransfer
      dsimp only
      rw [get_updLoad_addK_other hk, get_updLoad_addK_other hk]

theorem strat2_get_other {ctx : FillCtx} {key : ShiftKey} {sched : List SlotRec}
    {load : LoadMap} {donors recipients : List Person} {minC maxC : Int}
    {r : List SlotRec × LoadMap} (k : ShiftKey) (hk : k ≠ key)
    (h : strat2 ctx key sched load donors recipients minC maxC = some r) (e : String) :
    (r.2 e).get k = (load e).get k := by
  unfold strat2 at h
  rcases exists_of_findSome? h with ⟨donor, _, h2⟩
  rcases exists_of_findSome? h2 with ⟨di, _, h3⟩
  cases hgd : sched.get? di with
  | none => rw [hgd] at h3; exact absurd h3 (by simp)
  | some donorSlot =>
    rw [hgd] at h3
    simp only [Option.some_bind] at h3
    rcases exists_of_findSome? h3 with ⟨inter, _, h4⟩
    by_cases hconf : sameDayExceptLen sched di inter.email donorSlot.day != 0
    · rw [if_pos hconf] at h4
      exact absurd h4 (by simp)
    · rw [if_neg hconf] at h4
      rcases exists_of_findSome? h4 with ⟨ii, _, h5⟩
      cases hgi : sched.get? ii with
      | none => rw [hgi] at h5; exact absurd h5 (by simp)
      | some intSlot =>
        rw [hgi] at h5
        simp only [Option.some_bind] at h5
        cases hfindr : recipients.find? (fun p =>
            sameDayExceptLen sched ii p.email intSlot.day == 0) with
        | none => rw [hfindr] at h5; exact absurd h5 (by simp)
        | some rec =>
          rw [hfindr] at h5
          simp only [Option.map_some', Option.some.injEq] at h5
          subst h5
          dsimp only
          rw [get_updLoad_addK_other hk, get_updLoad_addK_other hk,
            get_updLoad_addK_other hk, get_updLoad_addK_other hk]

theorem balanceMove_get_other {ctx : FillCtx} {key : ShiftKey} {sched : List SlotRec}
    {load : LoadMap} {r : List SlotRec × LoadMap} (k : ShiftKey) (hk : k ≠ key)
    (h : balanceMove ctx key sched load = some r) (e : String) :
    (r.2 e).get k = (load e).get k := by
  unfold balanceMove at h
  dsimp only at h
  split at h
  next st hs1 =>
    have h2 : st = r := by injection h
    subst h2
    exact strat1_get_other k hk hs1 e
  next => exact strat2_get_other k hk h e

theorem balanceCatLoop_get_other (ctx : FillCtx) (key k : ShiftKey) (hk : k ≠ key) :
    ∀ (fuel : Nat) (st : List SlotRec × LoadMap) (e : String),
      ((balanceCatLoop ctx key fuel st).1.2 e).get k = (st.2 e).get k := by
  intro fuel
  induction fuel with
  | zero => intro st e; rfl
  | succ f ih =>
    intro st e
    unfold balanceCatLoop
    by_cases hsp : loadSpread ctx st.2 key ≤ 1
    · rw [if_pos hsp]
    · rw [if_neg hsp]
      split
      next st2 hm =>
        rw [ih st2 e]
        exact balanceMove_get_other k hk hm e
      next => rfl

theorem balanceUpTo_get_other (ctx : FillCtx) (k : ShiftKey) :
    ∀ (keys : List ShiftKey), k ∉ keys → ∀ (st : List SlotRec × LoadMap) (e : String),
      ((balanceUpTo ctx keys st).2 e).get k = (st.2 e).get k := by
  intro keys
  induction keys with
  | nil => intro _ st e; rfl
  | cons k2 t ih =>
    intro hmem st e
    have hne : k ≠ k2 := fun hh => hmem (by rw [hh]; exact List.mem_cons_self k2 t)
    have hnt : k ∉ t := fun hh => hmem (List.mem_cons_of_mem k2 hh)
    show ((balanceUpTo ctx t (balanceCatLoop ctx k2 500 st).1).2 e).get k = _
    rw [ih hnt _ e, balanceCatLoop_get_other ctx k2 k hne 500 st e]

theorem map_get_congr {load1 load2 : LoadMap} {k : ShiftKey}
    (h : ∀ e, (load1 e).get k = (load2 e).get k) :
    ∀ (ps : List Person), (ps.map fun p => (load1 p.email).get k)
      = ps.map fun p => (load2 p.email).get k := by
  intro ps
  induction ps with
  | nil => rfl
  | cons p t ih => simp only [List.map_cons, h, ih]

theorem loadSpread_congr {ctx : FillCtx} {load1 load2 : LoadMap} {k : ShiftKey}
    (h : ∀ e, (load1 e).get k = (load2 e).get k) :
    loadSpread ctx load1 k = loadSpread ctx load2 k := by
  unfold loadSpread balCounts
  rw [map_get_congr h]

theorem balanceUpTo_append (ctx : FillCtx) (l1 l2 : List ShiftKey)
    (st : List SlotRec × LoadMap) :
    balanceUpTo ctx (l1 ++ l2) st = balanceUpTo ctx l2 (balanceUpTo ctx l1 st) := by
  unfold balanceUpTo
  rw [List.foldl_append]

theorem balanceShifts_decomp (ctx : FillCtx) (st0 : List SlotRec × LoadMap)
    (pre post : List ShiftKey) (k : ShiftKey) (hd : shiftKeyOrder = pre ++ k :: post) :
    balanceShifts ctx st0
      = balanceUpTo ctx post (balanceCatLoop ctx k 500 (balanceUpTo ctx pre st0)).1 := by
  show balanceUpTo ctx shiftKeyOrder st0 = _
  rw [hd, balanceUpTo_append]
  rfl

theorem not_mem_post_of_decomp {pre post : List ShiftKey} {k : ShiftKey}
    (hd : shiftKeyOrder = pre ++ k :: post) : k ∉ post := by
  have hnd : shiftKeyOrder.Nodup := by decide
  rw [hd] at hnd
  have h2 := (List.nodup_append.mp hnd).2.1
  exact (List.nodup_cons.mp h2).1

theorem balanceShifts_spread_after (ctx : FillCtx) (st0 : List SlotRec × LoadMap)
    (pre post : List ShiftKey) (k : ShiftKey) (hd : shiftKeyOrder = pre ++ k :: post) :
    loadSpread ctx (balanceShifts ctx st0).2 k
      = loadSpread ctx (balanceCatLoop ctx k 500 (balanceUpTo ctx pre st0)).1.2 k := by
  rw [balanceShifts_decomp ctx st0 pre post k hd]
  exact loadSpread_congr
    (fun e => balanceUpTo_get_other ctx k post (not_mem_post_of_decomp hd) _ e)

theorem balanceCatLoop_exit (ctx : FillCtx) (key : ShiftKey) :
    ∀ (fuel : Nat) (st : List SlotRec × LoadMap),
      (balanceCatLoop ctx key fuel st).2 = 0 ∨
      loadSpread ctx (balanceCatLoop ctx key fuel st).1.2 key ≤ 1 ∨
      balanceMove ctx key (balanceCatLoop ctx key fuel st).1.1
        (balanceCatLoop ctx key fuel st).1.2 = none := by
  intro fuel
  induction fuel with
  | zero => intro st; exact Or.inl rfl
  | succ f ih =>
    intro st
    unfold balanceCatLoop
    by_cases hsp : loadSpread ctx st.2 key ≤ 1
    · rw [if_pos hsp]
      exact Or.inr (Or.inl hsp)
    · rw [if_neg hsp]
      split
      next st2 hm => exact ih st2
      next hm => exact Or.inr (Or.inr hm)

theorem map_count_eq_get {sched : List SlotRec} {load : LoadMap} {k : ShiftKey}
    (h : LoadOk sched load) :
    ∀ (ps : List Person), (ps.map fun p => slotCountI sched p.email k)
      = ps.map fun p => (load p.email).get k := by
  intro ps
  induction ps with
  | nil => rfl
  | cons p t ih => simp only [List.map_cons, (h p.email k).1, ih]

theorem schedSpread_eq_loadSpread {sched : List SlotRec} {load : LoadMap} {k : ShiftKey}
    (ctx : FillCtx) (h : LoadOk sched load) :
    schedSpread ctx.people sched k = loadSpread ctx load k := by
  unfold schedSpread loadSpread balCounts
  rw [map_count_eq_get h]

theorem generateSchedule_sched_eq (s s2 : Scheduler) (u : Except SchedErr Unit)
    (h : generateSchedule s = (s2, u)) (hok : u = Except.ok ()) :
    s2.schedule = (balanceShifts (mkCtx s) (optimizeWithSwaps (mkCtx s)
      ((runFill (mkCtx s) (sortByCmp slotCmp (generateSlots s))).sched,
       (runFill (mkCtx s) (sortByCmp slotCmp (generateSlots s))).load))).1 := by
  subst hok
  unfold generateSchedule at h
  dsimp only at h
  by_cases hcap : s.people.length < s.primaryCount + s.secondaryCount
  · rw [if_pos hcap] at h
    injection h with h1 h2
    exact absurd h2 (by simp)
  · rw [if_neg hcap] at h
    split at h
    · injection h with h1 h2
      exact absurd h2 (by simp)
    · injection h with h1 h2
      exact absurd h2 (by simp)
    · split at h
      · injection h with h1 h2
        exact absurd h2 (by simp)
      · injection h with h1 h2
        rw [← h1]

/-- C1 (amended): the guarantee the balancer actually provides.  A
category's balancing loop can only exit in one of three ways: the
500-iteration cap is hit, the per-category spread is already at most 1,
or neither a direct transfer nor a triangle rotation is possible
(`balanceMove` finds no move); later categories never change this
category's counters, so the spread the loop exits with is the spread of
the final load map; and whenever the loop exits with spread at most 1,
the schedule stored by a normally-returning `generateSchedule` has
max − min ≤ 1 for that category across the roster, recomputed from the
schedule itself.  (Unconditional `max − min ≤ 1` fails: see the
counterexample, where the loop exits because no move is possible.) -/
theorem c1_balancer_spread :
    (∀ (ctx : FillCtx) (key : ShiftKey) (fuel : Nat) (st : List SlotRec × LoadMap),
      (balanceCatLoop ctx key fuel st).2 = 0 ∨
      loadSpread ctx (balanceCatLoop ctx key fuel st).1.2 key ≤ 1 ∨
      balanceMove ctx key (balanceCatLoop ctx key fuel st).1.1
        (balanceCatLoop ctx key fuel st).1.2 = none) ∧
    (∀ (ctx : FillCtx) (st0 : List SlotRec × LoadMap) (pre post : List ShiftKey)
      (k : ShiftKey), shiftKeyOrder = pre ++ k :: post →
      loadSpread ctx (balanceShifts ctx st0).2 k
        = loadSpread ctx (balanceCatLoop ctx k 500 (balanceUpTo ctx pre st0)).1.2 k) ∧
    (∀ (s s2 : Scheduler) (u : Except SchedErr Unit) (pre post : List ShiftKey)
      (k : ShiftKey),
      generateSchedule s = (s2, u) → u = Except.ok () →
      shiftKeyOrder = pre ++ k :: post →
      loadSpread (mkCtx s) (balanceCatLoop (mkCtx s) k 500 (balanceUpTo (mkCtx s) pre
        (optimizeWithSwaps (mkCtx s)
          ((runFill (mkCtx s) (sortByCmp slotCmp (generateSlots s))).sched,
           (runFill (mkCtx s) (sortByCmp slotCmp (generateSlots s))).load)))).1.2 k ≤ 1 →
      schedSpread s.people s2.schedule k ≤ 1) := by
  refine ⟨balanceCatLoop_exit, balanceShifts_spread_after, ?_⟩
  intro s s2 u pre post k hgen hok hd hsp
  rw [generateSchedule_sched_eq s s2 u hgen hok]
  calc schedSpread s.people
        (balanceShifts (mkCtx s) (optimizeWithSwaps (mkCtx s)
          ((runFill (mkCtx s) (sortByCmp slotCmp (generateSlots s))).sched,
           (runFill (mkCtx s) (sortByCmp slotCmp (generateSlots s))).load))).1 k
      = loadSpread (mkCtx s)
          (balanceShifts (mkCtx s) (optimizeWithSwaps (mkCtx s)
            ((runFill (mkCtx s) (sortByCmp slotCmp (generateSlots s))).sched,
             (runFill (mkCtx s) (sortByCmp slotCmp (generateSlots s))).load))).2 k :=
        schedSpread_eq_loadSpread (mkCtx s) (pipeline_loadOk s)
    _ = loadSpread (mkCtx s) (balanceCatLoop (mkCtx s) k 500 (balanceUpTo (mkCtx s) pre
          (optimizeWithSwaps (mkCtx s)
            ((runFill (mkCtx s) (sortByCmp slotCmp (generateSlots s))).sched,
             (runFill (mkCtx s) (sortByCmp slotCmp (generateSlots s))).load)))).1.2 k :=
        balanceShifts_spread_after (mkCtx s) _ pre post k hd
    _ ≤ 1 := hsp

/-- C1 (amended) witness: the theorem applied to the concrete completed
run of the two-person scheduler and to the weekday-primary category,
whose loop does exit through the spread check. -/
theorem c1_balancer_spread_witness :
    loadSpread (mkCtx tinySched) (balanceCatLoop (mkCtx tinySched) ShiftKey.weekday_primary 500
      (balanceUpTo (mkCtx tinySched) []
        (optimizeWithSwaps (mkCtx tinySched)
          ((runFill (mkCtx tinySched) (sortByCmp slotCmp (generateSlots tinySched))).sched,
           (runFill (mkCtx tinySched) (sortByCmp slotCmp (generateSlots tinySched))).load)))).1.2
      ShiftKey.weekday_primary ≤ 1 ∧
    schedSpread tinySched.people (generateSchedule tinySched).1.schedule
      ShiftKey.weekday_primary ≤ 1 :=
  ⟨by decide,
   c1_balancer_spread.2.2 tinySched (generateSchedule tinySched).1
     (generateSchedule tinySched).2 []
     [ShiftKey.weekend_primary, ShiftKey.weekday_secondary, ShiftKey.weekend_secondary]
     ShiftKey.weekday_primary rfl (by rfl) rfl (by decide)⟩
